import Mathlib

/-!
wsh: a shallow embedding of the command execution engine.

The definitions below follow `src/wsh.c` function by function.

Modelling conventions:

* a C string is the list of its `char`s before the terminating NUL
  (`CStr`); reading the terminator gives the NUL character;
* a `char *` that may be `NULL` is an `Option CStr`;
* the global arrays (`history_list`, `local_variables`) are lists whose
  length is the allocated length (`history_list_size`,
  `num_local_variables`);
* `malloc`, `realloc` and `strdup` are taken to succeed; the slots that a
  growing `realloc` leaves uninitialised are filled from `OS.uninit`;
* the operating system is an oracle (`OS`) for the outcome of `fopen`,
  `access`, `chdir`, `readdir` and of a forked child, fixed for the
  duration of one command; the descriptor table, the environment, the
  working directory, the children launched and the lines printed are
  explicit state;
* strings are values: that a substituted token shares its storage with
  the variable it came from is not modelled;
* the descriptor table has no upper limit;
* behaviour that C leaves undefined (a `NULL` passed to `strcmp`,
  `fopen`, `fileno`, `strdup`, an out-of-bounds write) is the result
  `Res.undefined`; `exit` is the result `Res.exited`.
-/

namespace Wsh

/-! ## C strings -/

/-- A C string: its characters before the terminating NUL. -/
abbrev CStr := List Char

/-- The character `s[i]`, the terminator being NUL. -/
def char_at (s : CStr) (i : Nat) : Char := s.getD i (Char.ofNat 0)

/-- The test `isdigit(c)` of ctype.h in the C locale. -/
def isdigit (c : Char) : Bool := decide (48 ≤ c.toNat) && decide (c.toNat ≤ 57)

/-- The test `isspace(c)` of ctype.h in the C locale. -/
def isspace (c : Char) : Bool := c.toNat == 32 || (decide (9 ≤ c.toNat) && decide (c.toNat ≤ 13))

/-- The sign of `strcmp(a, b)`: characters are compared as bytes, a proper
prefix sorts first. -/
def strcmp : CStr → CStr → Int
  | [], [] => 0
  | [], _ :: _ => -1
  | _ :: _, [] => 1
  | a :: s, b :: t =>
    if a.toNat < b.toNat then -1 else if b.toNat < a.toNat then 1 else strcmp s t

/-- Whether `needle` occurs at the start of `hay`. -/
def starts_with : CStr → CStr → Bool
  | _, [] => true
  | [], _ :: _ => false
  | a :: s, b :: t => a == b && starts_with s t

/-- Whether `strstr(hay, needle)` is not `NULL`. -/
def strstr : CStr → CStr → Bool
  | [], needle => starts_with [] needle
  | a :: s, needle => starts_with (a :: s) needle || strstr s needle

/-- One call of `strtok(s, delim)` on a fresh string: `none` when `s` holds
only delimiters, else the token and the text that a later
`strtok(NULL, ...)` continues with. -/
def strtok (s delim : CStr) : Option (CStr × CStr) :=
  let body := s.dropWhile (fun c => decide (c ∈ delim))
  if body = [] then none
  else some (body.takeWhile (fun c => !decide (c ∈ delim)),
             (body.dropWhile (fun c => !decide (c ∈ delim))).drop 1)

/-- What the string `s` reads as after `strtok(s, delim)` has written its
NUL: the leading delimiters followed by the first token. -/
def strtok_residue (s delim : CStr) : CStr :=
  s.takeWhile (fun c => decide (c ∈ delim)) ++
    (s.dropWhile (fun c => decide (c ∈ delim))).takeWhile (fun c => !decide (c ∈ delim))

/-- The loop `tok = strtok(s, d); while (tok != NULL) { ...; tok = strtok(NULL, d); }`
collecting the tokens; `n` bounds the number of iterations. -/
def strtok_loop (delim : CStr) : Nat → CStr → List CStr
  | 0, _ => []
  | n + 1, s =>
    match strtok s delim with
    | none => []
    | some (tok, rest) => tok :: strtok_loop delim n rest

/-- All tokens of `s`; every iteration consumes a character, so
`s.length + 1` iterations are enough. -/
def strtok_all (s delim : CStr) : List CStr := strtok_loop delim (s.length + 1) s

/-- The digits read by `atoi`, accumulated in base ten. -/
def atoi_digits : CStr → Nat → Nat
  | [], acc => acc
  | c :: s, acc => if isdigit c then atoi_digits s (10 * acc + (c.toNat - 48)) else acc

/-- The number `strtol(s, NULL, 10)` reads before it looks at the range of
`long`: leading white space, an optional sign, then digits. -/
def strtol_value (s : CStr) : Int :=
  match s.dropWhile isspace with
  | '-' :: t => - (atoi_digits t 0 : Int)
  | '+' :: t => (atoi_digits t 0 : Int)
  | t => (atoi_digits t 0 : Int)

/-- The result of `strtol`: the number read, replaced by `LONG_MAX` or
`LONG_MIN` (64 bits) when it is out of the range of `long`. -/
def strtol_clamp (v : Int) : Int :=
  if v > 9223372036854775807 then 9223372036854775807
  else if v < -9223372036854775808 then -9223372036854775808
  else v

/-- The conversion of a `long` to the 32-bit `int`: the value modulo
`2^32`, taken in `[-2^31, 2^31)`. -/
def to_int (v : Int) : Int := (v + 2147483648) % 4294967296 - 2147483648

/-- The value `atoi(s)`, an `int`. Within the range of `int` it is the
number written in `s`; outside it the C standard leaves the result
undefined, and the value modelled is the one of the C library the program
is built with, `(int) strtol(s, NULL, 10)`: `"4294967298"` gives 2 and
`"2147483648"` gives `-2147483648`. -/
def atoi (s : CStr) : Int := to_int (strtol_clamp (strtol_value s))

/-! ## Shell state -/

/-- The struct `LocalVar`. -/
structure LocalVar where
  name : CStr
  value : CStr
deriving DecidableEq, Repr

/-- An open file description: the path it was opened on and the `fopen`
mode. -/
structure OpenFile where
  path : CStr
  mode : CStr
deriving DecidableEq, Repr

/-- The descriptor table: entry `fd` is the open file description of
descriptor `fd`, or `none` when the descriptor is closed. -/
abbrev FdTable := List (Option OpenFile)

/-- The globals of `wsh.c` together with the process state that the shell
reads and writes. -/
structure Shell where
  /-- The array `history_list`; its length is `history_list_size`. -/
  history_list : List (Option CStr)
  /-- The array `local_variables`; its length is `num_local_variables`. -/
  local_variables : List LocalVar
  /-- The exit-status register `return_var`. -/
  return_var : Int
  /-- The process environment, as `getenv` and `setenv` see it. -/
  environ : List (CStr × CStr)
  /-- The arguments of the successful `chdir` calls, most recent first. -/
  chdirs : List CStr
  /-- The descriptor table of the shell process. -/
  fds : FdTable
  /-- The lines written with `printf`, oldest first. -/
  out : List CStr
  /-- The children forked, oldest first: the path and the argument vector
  given to `execv`. -/
  launched : List (CStr × List CStr)
deriving DecidableEq, Repr

/-- How `waitpid` reports a terminated child. -/
inductive ChildStatus where
  | exited (code : Int)
  | signaled
deriving DecidableEq, Repr

/-- The operating system as seen during one command. -/
structure OS where
  /-- Whether `fopen(path, mode)` returns a stream. -/
  fopen_ok : CStr → CStr → Bool
  /-- Whether `access(path, X_OK) == 0`. -/
  access_x : CStr → Bool
  /-- Whether `chdir(path)` succeeds. -/
  chdir_ok : CStr → Bool
  /-- The names `readdir` returns for the current directory, in its order;
  `none` when `opendir` fails. -/
  readdir : Option (List CStr)
  /-- The outcome of `fork` + `execv(path, argv)` + `waitpid` seen from the
  shell: `none` when `fork` fails. -/
  spawn : CStr → List CStr → Option ChildStatus
  /-- The content of slot `i` of a block that `realloc` has grown and the
  program has not yet written. -/
  uninit : Nat → Option CStr

/-- The outcome of a call. -/
inductive Res (α : Type) where
  | ok (a : α)
  | undefined
  | exited (code : Int)
  | out_of_fuel
deriving DecidableEq, Repr

/-- Sequencing of calls. -/
def Res.bind {α β : Type} (r : Res α) (f : α → Res β) : Res β :=
  match r with
  | .ok a => f a
  | .undefined => .undefined
  | .exited c => .exited c
  | .out_of_fuel => .out_of_fuel

/-- The call `getenv(name)`. -/
def getenv (env : List (CStr × CStr)) (name : CStr) : Option CStr :=
  match env with
  | [] => none
  | (n, v) :: rest => if n = name then some v else getenv rest name

/-- The loop of `substitute_var` over `local_variables[i..]`: the value of
the first entry whose name compares equal, else the literal `""`. -/
def substitute_var_loop (vars : List LocalVar) (var_name : CStr) : CStr :=
  match vars with
  | [] => []
  | v :: rest =>
    if strcmp v.name var_name = 0 then v.value else substitute_var_loop rest var_name

/-- The function `substitute_var(arg)`. -/
def substitute_var (s : Shell) (arg : CStr) : CStr :=
  if char_at arg 0 ≠ '$' then arg
  else
    let var_name := arg.drop 1
    match getenv s.environ var_name with
    | some env_value => env_value
    | none => substitute_var_loop s.local_variables var_name

/-- The substitution contract in the words of the specification: a token
that does not begin with `$` is returned unchanged; otherwise the name is
the token minus its `$`, resolved first in the environment, then among the
local variables, and to the empty string when neither defines it. -/
def substitute_spec (env : CStr → Option CStr) (locals : List (CStr × CStr))
    (token : CStr) : CStr :=
  match token with
  | '$' :: name =>
    match env name with
    | some v => v
    | none =>
      match locals.find? (fun p => decide (p.1 = name)) with
      | some p => p.2
      | none => []
  | _ => token

/-! ## Descriptors -/

/-- The constant `MAXLINE` of wsh.h. -/
def MAXLINE : Nat := 1024

/-- The constant `MAXARGS` of wsh.h. -/
def MAXARGS : Nat := 128

/-- The open file description behind descriptor `fd`. -/
def fd_lookup (t : FdTable) (fd : Nat) : Option OpenFile := t.getD fd none

/-- The table with descriptor `fd` bound to `v`. -/
def fd_assign (t : FdTable) (fd : Nat) (v : Option OpenFile) : FdTable :=
  if fd < t.length then t.set fd v else t ++ List.replicate (fd - t.length) none ++ [v]

/-- The lowest descriptor that is not open: the one `open` and `dup`
return. -/
def lowest_free : FdTable → Nat
  | [] => 0
  | none :: _ => 0
  | some _ :: t => lowest_free t + 1

/-- The call `dup(oldfd)`: the new descriptor (`none` for -1) and the
table. -/
def sys_dup (t : FdTable) (oldfd : Nat) : Option Nat × FdTable :=
  match fd_lookup t oldfd with
  | none => (none, t)
  | some f => (some (lowest_free t), fd_assign t (lowest_free t) (some f))

/-- The call `dup2(oldfd, newfd)`; an `oldfd` that is -1 or closed leaves
the table as it is. -/
def sys_dup2 (t : FdTable) (oldfd : Option Nat) (newfd : Nat) : FdTable :=
  match oldfd with
  | none => t
  | some o =>
    match fd_lookup t o with
    | none => t
    | some f => fd_assign t newfd (some f)

/-- The call `close(fd)`. -/
def sys_close (t : FdTable) (fd : Option Nat) : FdTable :=
  match fd with
  | none => t
  | some k => if fd_lookup t k = none then t else fd_assign t k none

/-! ## Redirection -/

/-- What one branch of the redirection scan of `execute_commands` computes
from a token before it opens the file. -/
structure Redir where
  /-- The descriptors the opened file is duplicated onto. -/
  targets : List Nat
  /-- The file name given to `fopen` (`none`: `strtok` returned `NULL`). -/
  filename : Option CStr
  /-- The `fopen` mode. -/
  mode : CStr
  /-- Whether the branch tests the result of `fopen` against `NULL`. -/
  checked : Bool
  /-- What `args[i]` reads as after `strtok` has run on it. -/
  residue : CStr
deriving DecidableEq, Repr

/-- The tests and the file-name extraction of the `if` chain in the scan
loop of `execute_commands` (lines 460-569), for the token `arg`. `none`:
no branch is taken. -/
def parse_redir (arg : CStr) : Option Redir :=
  if strstr arg "<".toList then
    if isdigit (char_at arg 0) && char_at arg 1 == '<' then
      some { targets := [(char_at arg 0).toNat - 48],
             filename := (strtok (arg.drop 2) " ".toList).map Prod.fst,
             mode := "r".toList, checked := true,
             residue := arg.take 2 ++ strtok_residue (arg.drop 2) " ".toList }
    else
      some { targets := [0],
             filename := (strtok arg "<".toList).map Prod.fst,
             mode := "r".toList, checked := true,
             residue := strtok_residue arg "<".toList }
  else if strstr arg "&>>".toList then
    some { targets := [1, 2],
           filename := (strtok arg "&>>".toList).map Prod.fst,
           mode := "a".toList, checked := false,
           residue := strtok_residue arg "&>>".toList }
  else if strstr arg ">>".toList then
    if isdigit (char_at arg 0) && char_at arg 1 == '>' && char_at arg 2 == '>' then
      some { targets := [(char_at arg 0).toNat - 48],
             filename := (strtok (arg.drop 3) " ".toList).map Prod.fst,
             mode := "a".toList, checked := true,
             residue := arg.take 3 ++ strtok_residue (arg.drop 3) " ".toList }
    else
      some { targets := [1],
             filename := (strtok arg ">>".toList).map Prod.fst,
             mode := "a".toList, checked := true,
             residue := strtok_residue arg ">>".toList }
  else if strstr arg "&>".toList then
    some { targets := [1, 2],
           filename := (strtok arg "&>".toList).map Prod.fst,
           mode := "w".toList, checked := false,
           residue := strtok_residue arg "&>".toList }
  else if strstr arg ">".toList then
    if isdigit (char_at arg 0) && char_at arg 1 == '>' then
      some { targets := [(char_at arg 0).toNat - 48],
             filename := (strtok (arg.drop 2) " ".toList).map Prod.fst,
             mode := "w".toList, checked := true,
             residue := arg.take 2 ++ strtok_residue (arg.drop 2) " ".toList }
    else
      some { targets := [1],
             filename := (strtok arg ">".toList).map Prod.fst,
             mode := "w".toList, checked := true,
             residue := strtok_residue arg ">".toList }
  else none

/-- The descriptor table after a successful `fopen` (the stream gets the
lowest free descriptor), the `dup2` of its descriptor onto every target,
and `fclose`. -/
def open_onto (t : FdTable) (file : OpenFile) (targets : List Nat) : FdTable :=
  let k := lowest_free t
  let opened := fd_assign t k (some file)
  let dupped := targets.foldl (fun t1 fd => sys_dup2 t1 (some k) fd) opened
  sys_close dupped (some k)

/-- The body of a taken branch: `fopen`, then on success `dup2` onto every
target, `fclose`, and `args[i] = NULL`; on failure `return_var = -1` where
the branch tests the stream. Returns the new `args[i]`. -/
def apply_redir (os : OS) (r : Redir) (s : Shell) : Res (Option CStr × Shell) :=
  match r.filename with
  | none => .undefined
  | some f =>
    if os.fopen_ok f r.mode then
      .ok (none, { s with fds := open_onto s.fds { path := f, mode := r.mode } r.targets })
    else if r.checked then .ok (some r.residue, { s with return_var := -1 })
    else .undefined

/-- The scan `while (args[i] != NULL) { ...; i++; }` of `execute_commands`.
Returns the array `args` as the scan leaves it, one slot per token. -/
def redirect_loop (os : OS) : List CStr → Shell → Res (List (Option CStr) × Shell)
  | [], s => .ok ([], s)
  | arg :: rest, s =>
    match parse_redir arg with
    | none =>
      (redirect_loop os rest s).bind fun p => .ok (some arg :: p.1, p.2)
    | some r =>
      (apply_redir os r s).bind fun q =>
        (redirect_loop os rest q.2).bind fun p => .ok (q.1 :: p.1, p.2)

/-- The pointer `args[k]`; past the array it is `NULL`. -/
def arg_at (args : List (Option CStr)) (k : Nat) : Option CStr := args.getD k none

/-- The argument vector a callee sees in `args`: the entries before the
first `NULL`. -/
def argv_of : List (Option CStr) → List CStr
  | some a :: rest => a :: argv_of rest
  | _ => []

/-! ## Built-in commands -/

/-- The function `wsh_exit`. -/
def wsh_exit (args : List (Option CStr)) (s : Shell) : Res Shell :=
  if arg_at args 1 ≠ none then .ok { s with return_var := -1 }
  else .exited s.return_var

/-- The function `wsh_cd`. -/
def wsh_cd (os : OS) (args : List (Option CStr)) (s : Shell) : Shell :=
  let s1 : Shell :=
    match arg_at args 1 with
    | none => { s with return_var := -1 }
    | some dir =>
      if os.chdir_ok dir then { s with chdirs := dir :: s.chdirs }
      else { s with return_var := -1 }
  { s1 with return_var := 0 }

/-- The call `setenv(name, value, 1)` on a name that `setenv` accepts. -/
def setenv (env : List (CStr × CStr)) (name value : CStr) : List (CStr × CStr) :=
  match env with
  | [] => [(name, value)]
  | (n, v) :: rest => if n = name then (n, value) :: rest else (n, v) :: setenv rest name value

/-- The two `strtok` calls that open `wsh_export` and `wsh_local`:
`var_name = strtok(args[1], "=")` and `var_assignment = strtok(NULL, "=")`,
the latter replaced by `""` when it is `NULL`. `none`: `var_name` is
`NULL`. -/
def split_assignment (a : CStr) : Option (CStr × CStr) :=
  match strtok a "=".toList with
  | none => none
  | some (var_name, rest) =>
    match strtok rest "=".toList with
    | none => some (var_name, [])
    | some (var_assignment, _) => some (var_name, var_assignment)

/-- The function `wsh_export`. Without an argument the C code goes on to
`strtok(NULL, "=")`, which continues the scan of a string of an earlier
caller; that case is left undefined here, as is a `NULL` name given to
`setenv`. -/
def wsh_export (args : List (Option CStr)) (s : Shell) : Res Shell :=
  match arg_at args 1 with
  | none => .undefined
  | some a =>
    match split_assignment a with
    | none => .undefined
    | some (var_name, var_assignment) =>
      .ok { s with environ := setenv s.environ var_name var_assignment, return_var := 0 }

/-- The search `for (i = 0; i < num_local_variables; i++) if (strcmp(...) == 0)`
of `wsh_local`: the first index, counted from `i`, whose name compares
equal. -/
def local_search (vars : List LocalVar) (var_name : CStr) (i : Nat) : Option Nat :=
  match vars with
  | [] => none
  | v :: rest =>
    if strcmp v.name var_name = 0 then some i else local_search rest var_name (i + 1)

/-- The loop `for (j = i; j < num_local_variables - 1; j++) v[j] = v[j + 1]`;
the second argument is `j`, the third the number of iterations left. -/
def shift_up (vars : List LocalVar) : Nat → Nat → List LocalVar
  | _, 0 => vars
  | j, k + 1 =>
    match vars.get? (j + 1) with
    | some x => shift_up (vars.set j x) (j + 1) k
    | none => vars

/-- The function `wsh_local`. Without an argument the C code continues a
`strtok` scan of an earlier caller (left undefined here); an argument
without a name gives `strcmp` or `strdup` a `NULL`. -/
def wsh_local (args : List (Option CStr)) (s : Shell) : Res Shell :=
  match arg_at args 1 with
  | none => .undefined
  | some a =>
    match split_assignment a with
    | none => .undefined
    | some (var_name, var_assignment) =>
      let n := s.local_variables.length
      match local_search s.local_variables var_name 0 with
      | some i =>
        if strcmp var_assignment [] = 0 then
          .ok { s with
            local_variables := (shift_up s.local_variables i (n - 1 - i)).take (n - 1) }
        else
          match s.local_variables.get? i with
          | some v =>
            .ok { s with
              local_variables :=
                s.local_variables.set i { name := v.name, value := var_assignment },
              return_var := 0 }
          | none => .undefined
      | none =>
        .ok { s with
          local_variables :=
            s.local_variables ++ [{ name := var_name, value := var_assignment }] }

/-- The function `wsh_vars`: one line `name=value` per entry. -/
def wsh_vars (s : Shell) : Shell :=
  { s with
    out := s.out ++ s.local_variables.map (fun v => v.name ++ '=' :: v.value),
    return_var := 0 }

/-- The display loop of `wsh_history`: for every slot from index `i` on
that is not `NULL`, the pair printed (`i + 1` and the line). -/
def history_show : List (Option CStr) → Nat → List (Nat × CStr)
  | [], _ => []
  | none :: rest, i => history_show rest (i + 1)
  | some line :: rest, i => (i + 1, line) :: history_show rest (i + 1)

/-- The text of `printf("%d) %s\n", n, line)` without the newline. -/
def history_line (p : Nat × CStr) : CStr := (Nat.repr p.1).toList ++ ") ".toList ++ p.2

/-- The block `realloc(history_list, new_size * sizeof(char *))` returns:
the first `new_size` slots, the grown part not yet written. -/
def realloc_history (os : OS) (h : List (Option CStr)) (new_size : Nat) : List (Option CStr) :=
  h.take new_size ++ (List.range (new_size - h.length)).map (fun k => os.uninit (h.length + k))

/-- The loop `for (i = history_list_size; i < new_size; i++) history_list[i] = NULL`;
the second argument is `i`, the third the number of iterations left. -/
def null_fill (h : List (Option CStr)) : Nat → Nat → List (Option CStr)
  | _, 0 => h
  | i, k + 1 => null_fill (h.set i none) (i + 1) k

/-- The branch `history set <n>` of `wsh_history` once `new_size > 0`. -/
def history_resize (os : OS) (h : List (Option CStr)) (new_size : Nat) : List (Option CStr) :=
  let grown := realloc_history os h new_size
  if new_size > h.length then null_fill grown h.length (new_size - h.length) else grown

/-- The `if` chain of `wsh_history` (lines 240-340), up to the assignment
that ends the function; `replay` is the call
`execute_commands(temp_args, NULL, 1)`. -/
def wsh_history_chain (os : OS) (replay : List CStr → Shell → Res Shell)
    (args : List (Option CStr)) (s : Shell) : Res Shell :=
  match arg_at args 1 with
  | none =>
    .ok { s with out := s.out ++ (history_show s.history_list 0).map history_line }
  | some a1 =>
    if strcmp a1 "set".toList = 0 ∧ arg_at args 2 ≠ none ∧
        isdigit (char_at ((arg_at args 2).getD []) 0) = true then
      let new_size := atoi ((arg_at args 2).getD [])
      if new_size > 0 then
        .ok { s with history_list := history_resize os s.history_list new_size.toNat }
      else
        .ok { s with return_var := -1 }
    else if isdigit (char_at a1 0) then
      let index := atoi a1 - 1
      if index ≥ 0 ∧ index < s.history_list.length then
        match s.history_list.getD index.toNat none with
        | some command =>
          let temp_args := strtok_all command " ".toList
          if temp_args.length ≥ MAXARGS then .undefined
          else replay temp_args s
        | none => .ok { s with return_var := -1 }
      else .ok { s with return_var := -1 }
    else .ok s

/-- The function `wsh_history`: the chain, then `return_var = 0` (line
343). -/
def wsh_history (os : OS) (replay : List CStr → Shell → Res Shell)
    (args : List (Option CStr)) (s : Shell) : Res Shell :=
  (wsh_history_chain os replay args s).bind fun s1 => .ok { s1 with return_var := 0 }

/-- One comparison step of the sort in `wsh_ls`: swap the names at `j` and
`j + 1` when `strcmp` is positive. -/
def bubble_step (l : List CStr) (j : Nat) : List CStr :=
  match l.get? j, l.get? (j + 1) with
  | some a, some b => if strcmp a b > 0 then (l.set j b).set (j + 1) a else l
  | _, _ => l

/-- The inner loop `for (j = 0; j < file_count - i - 1; j++)`; the second
argument is `j`, the third the number of iterations left. -/
def bubble_inner (l : List CStr) : Nat → Nat → List CStr
  | _, 0 => l
  | j, k + 1 => bubble_inner (bubble_step l j) (j + 1) k

/-- The outer loop `for (i = 0; i < file_count - 1; i++)`; the second
argument is `i`, the third the number of iterations left. -/
def bubble_outer (l : List CStr) : Nat → Nat → List CStr
  | _, 0 => l
  | i, k + 1 => bubble_outer (bubble_inner l 0 (l.length - i - 1)) (i + 1) k

/-- The sort of `wsh_ls` on the `file_count` names collected. -/
def bubble_sort (l : List CStr) : List CStr := bubble_outer l 0 (l.length - 1)

/-- The names `wsh_ls` keeps from `readdir`: those whose first character
is not a dot. -/
def ls_collect (entries : List CStr) : List CStr :=
  entries.filter (fun d_name => char_at d_name 0 != '.')

/-- The function `wsh_ls`. -/
def wsh_ls (os : OS) (s : Shell) : Shell :=
  match os.readdir with
  | none => { s with return_var := -1 }
  | some entries =>
    { s with out := s.out ++ bubble_sort (ls_collect entries), return_var := 0 }

/-! ## External commands -/

/-- Fork, `execv` and `waitpid` in the branch for a directly executable
`args[0]` (lines 613-645). -/
def launch_direct (os : OS) (path : CStr) (argv : List CStr) (s : Shell) : Shell :=
  match os.spawn path argv with
  | none => { s with return_var := -1 }
  | some (.exited code) =>
    { s with launched := s.launched ++ [(path, argv)], return_var := code }
  | some .signaled =>
    { s with launched := s.launched ++ [(path, argv)], return_var := -1 }

/-- Fork, `execv` and `waitpid` in the `PATH` branch (lines 665-697). -/
def launch_path (os : OS) (path : CStr) (argv : List CStr) (s : Shell) : Shell :=
  match os.spawn path argv with
  | none => { s with return_var := -1 }
  | some (.exited code) =>
    { s with launched := s.launched ++ [(path, argv)],
             return_var := if code = 0 then 0 else s.return_var }
  | some .signaled =>
    { s with launched := s.launched ++ [(path, argv)], return_var := -1 }

/-- The text `snprintf(full_path, MAXLINE, "%s/%s", dir, cmd)` stores. -/
def full_path (dir cmd : CStr) : CStr := (dir ++ '/' :: cmd).take (MAXLINE - 1)

/-- The loop `while (all_paths != NULL)` over the entries of `PATH`; the
Boolean is `cmd_executed`. -/
def path_scan (os : OS) (cmd : CStr) (argv : List CStr) :
    List CStr → Shell × Bool → Shell × Bool
  | [], acc => acc
  | dir :: rest, acc =>
    if os.access_x (full_path dir cmd) then
      path_scan os cmd argv rest (launch_path os (full_path dir cmd) argv acc.1, true)
    else path_scan os cmd argv rest acc

/-- The names tested by the built-in chain of `execute_commands`. -/
def builtin_names : List CStr :=
  ["exit".toList, "cd".toList, "export".toList, "local".toList, "vars".toList,
   "history".toList, "ls".toList]

/-- The chain of lines 573-706: built-in, directly executable, or `PATH`
scan. Returns the state and `cmd_executed`. -/
def dispatch (os : OS) (replay : List CStr → Shell → Res Shell)
    (args : List (Option CStr)) (s : Shell) : Res (Shell × Bool) :=
  match arg_at args 0 with
  | none => .undefined
  | some a0 =>
    if strcmp a0 "exit".toList = 0 then (wsh_exit args s).bind fun s1 => .ok (s1, true)
    else if strcmp a0 "cd".toList = 0 then .ok (wsh_cd os args s, true)
    else if strcmp a0 "export".toList = 0 then (wsh_export args s).bind fun s1 => .ok (s1, true)
    else if strcmp a0 "local".toList = 0 then (wsh_local args s).bind fun s1 => .ok (s1, true)
    else if strcmp a0 "vars".toList = 0 then .ok (wsh_vars s, true)
    else if strcmp a0 "history".toList = 0 then
      (wsh_history os replay args s).bind fun s1 => .ok (s1, true)
    else if strcmp a0 "ls".toList = 0 then .ok (wsh_ls os s, true)
    else if os.access_x a0 then .ok (launch_direct os a0 (argv_of args) s, true)
    else
      match getenv s.environ "PATH".toList with
      | none => .undefined
      | some path =>
        .ok (path_scan os a0 (argv_of args) (strtok_all path ":".toList) (s, false))

/-! ## History recording and the orchestrator -/

/-- The loop `for (j = history_list_size - 1; j > 0; j--) h[j] = h[j - 1]`;
the argument is `j`. -/
def shift_history (h : List (Option CStr)) : Nat → List (Option CStr)
  | 0 => h
  | j + 1 => shift_history (h.set (j + 1) (h.getD j none)) j

/-- Lines 708-735 of `execute_commands`. -/
def record_history (args0 original_line : Option CStr) (from_history cmd_executed : Bool)
    (s : Shell) : Res Shell :=
  match args0 with
  | none => .ok s
  | some a0 =>
    if from_history = false ∧ cmd_executed = true then
      if a0 ∉ builtin_names then
        match s.history_list, original_line with
        | [], _ => .undefined
        | _ :: _, none => .undefined
        | slot0 :: rest, some line =>
          if slot0 = none ∨ strcmp (slot0.getD []) line ≠ 0 then
            .ok { s with
              history_list :=
                (shift_history (slot0 :: rest) ((slot0 :: rest).length - 1)).set 0 (some line) }
          else .ok s
      else .ok s
    else .ok s

/-- Lines 737-743: the three `dup2` back onto 0, 1, 2 and the three
`close`. -/
def restore_fds (saved_stdin saved_stdout saved_stderr : Option Nat) (t : FdTable) : FdTable :=
  let t1 := sys_dup2 t saved_stdin 0
  let t2 := sys_dup2 t1 saved_stdout 1
  let t3 := sys_dup2 t2 saved_stderr 2
  sys_close (sys_close (sys_close t3 saved_stdin) saved_stdout) saved_stderr

/-- Lines 451-453: the three `dup` calls. Returns `saved_stdin`,
`saved_stdout`, `saved_stderr` and the table. -/
def save_std (t : FdTable) : (Option Nat × Option Nat × Option Nat) × FdTable :=
  let d0 := sys_dup t 0
  let d1 := sys_dup d0.2 1
  let d2 := sys_dup d1.2 2
  ((d0.1, d1.1, d2.1), d2.2)

/-- The first part of `execute_commands`: the descriptors are saved and
the tokens scanned for redirections. Returns the array `args` after the
scan. -/
def scan_args (os : OS) (args : List CStr) (s : Shell) : Res (List (Option CStr) × Shell) :=
  redirect_loop os args { s with fds := (save_std s.fds).2 }

/-- The body of `execute_commands(args, original_line, from_history)`;
`replay` is the function itself, as `wsh_history` calls it. -/
def execute_body (os : OS) (replay : List CStr → Shell → Res Shell)
    (args : List CStr) (original_line : Option CStr) (from_history : Bool)
    (s : Shell) : Res Shell :=
  let saved := (save_std s.fds).1
  (scan_args os args s).bind fun scanned =>
    (dispatch os replay scanned.1 scanned.2).bind fun ran =>
      (record_history (arg_at scanned.1 0) original_line from_history ran.2 ran.1).bind
        fun s3 =>
          let s4 : Shell := { s3 with fds := restore_fds saved.1 saved.2.1 saved.2.2 s3.fds }
          .ok (if ran.2 = true then s4 else { s4 with return_var := -1 })

/-- The function `execute_commands`; the first argument bounds the depth
of the calls it makes to itself through `history <n>`. -/
def execute_commands (os : OS) : Nat → List CStr → Option CStr → Bool → Shell → Res Shell
  | 0 => fun _ _ _ _ => .out_of_fuel
  | fuel + 1 => fun args original_line from_history s =>
    execute_body os (fun temp_args s1 => execute_commands os fuel temp_args none true s1)
      args original_line from_history s

/-- One iteration of the reading loops of `interactive_shell` and
`bash_shell` on the line `line` (without its newline): comments and empty
lines are skipped, the tokens are substituted and executed. (The stream of
the script file, which `bash_shell` closes before an `exit`, is not part of
the state.) -/
def shell_step (os : OS) (fuel : Nat) (line : CStr) (s : Shell) : Res Shell :=
  if char_at line 0 = '#' then .ok s
  else
    let tokens := strtok_all line " ".toList
    if tokens.length ≥ MAXARGS then .undefined
    else if tokens = [] then .ok s
    else execute_commands os fuel (tokens.map (substitute_var s)) (some line) false s

/-! ## Notions used to state the properties -/

/-- The command name `execute_commands` dispatches on: `args[0]` as the
redirection scan leaves it (`none` when it is `NULL` or the scan is
undefined). -/
def command_name (os : OS) (args : List CStr) (s : Shell) : Option CStr :=
  match scan_args os args s with
  | .ok scanned => arg_at scanned.1 0
  | _ => none

/-- Whether a command that is not a built-in gets executed: it is
executable as given, or `PATH` is set and has an entry under which it is
executable. -/
def cmd_found (os : OS) (name : CStr) (s : Shell) : Bool :=
  os.access_x name ||
    match getenv s.environ "PATH".toList with
    | none => false
    | some path => (strtok_all path ":".toList).any (fun dir => os.access_x (full_path dir name))

/-- The reference `record` of the history ring, in the words of the
specification: a line equal to the one in slot 0 leaves the ring as it is;
otherwise slot 0 holds the line, slot `i + 1` holds the former slot `i`,
the former last slot is gone and the capacity is the same. -/
def record_spec (line : CStr) (ring : List (Option CStr)) : List (Option CStr) :=
  if ring.head? = some (some line) then ring
  else (List.range ring.length).map (fun i => if i = 0 then some line else ring.getD (i - 1) none)

/-! ## Concrete inputs -/

/-- A terminal, as the three standard descriptors of an interactive shell
are opened on. -/
def tty : OpenFile := { path := "/dev/tty".toList, mode := "r+".toList }

/-- An operating system in which every file opens, `/bin/echo` and
`/usr/bin/echo` are the executables, the current directory holds four
entries, and every child exits with code 0. -/
def demo_os : OS :=
  { fopen_ok := fun _ _ => true,
    access_x := fun p => p == "/bin/echo".toList || p == "/usr/bin/echo".toList,
    chdir_ok := fun _ => true,
    readdir := some ["banana".toList, "Apple".toList, "apple".toList, ".hidden".toList],
    spawn := fun _ _ => some (.exited 0),
    uninit := fun _ => some "stale".toList }

/-- The shell as `main` leaves it before the first command: an empty ring
of five slots, no local variable, `PATH=/bin`, the standard descriptors on
the terminal. -/
def demo_shell : Shell :=
  { history_list := [none, none, none, none, none],
    local_variables := [],
    return_var := 0,
    environ := [("PATH".toList, "/bin".toList)],
    chdirs := [],
    fds := [some tty, some tty, some tty],
    out := [],
    launched := [] }

/-- The shell of `demo_shell` with the ring `[A, B, C, D, E]`. -/
def full_ring_shell : Shell :=
  { demo_shell with
    history_list :=
      [some "A".toList, some "B".toList, some "C".toList, some "D".toList, some "E".toList] }

/-- The shell of `demo_shell` with the local variables `A=1` and `B=1`. -/
def two_vars_shell : Shell :=
  { demo_shell with
    local_variables :=
      [{ name := "A".toList, value := "1".toList }, { name := "B".toList, value := "1".toList }] }

/-- One pass of the sort of `wsh_ls` in list form, used to reason about
`bubble_inner`: `k` comparisons, the first between `a` and the head of the
list, the larger name carried on. -/
def bubble_carry : Nat → CStr → List CStr → List CStr
  | 0, a, rest => a :: rest
  | _ + 1, a, [] => [a]
  | k + 1, a, b :: t =>
    if strcmp a b > 0 then b :: bubble_carry k a t else a :: bubble_carry k b t

/-- Whether every redirection token of the command opens: each token that
takes a branch of the scan has a file name and `fopen` succeeds on it. -/
def redirs_open (os : OS) (args : List CStr) : Bool :=
  args.all fun t =>
    match parse_redir t with
    | none => true
    | some r =>
      match r.filename with
      | none => false
      | some f => os.fopen_ok f r.mode

/-- The argument vector that `execute_commands` hands to the built-ins and
to `execv`: `args` after the scan, up to its first `NULL`. -/
def dispatch_argv (os : OS) (args : List CStr) (s : Shell) : Option (List CStr) :=
  match scan_args os args s with
  | .ok scanned => some (argv_of scanned.1)
  | _ => none

/-- The shell of `demo_shell` with `PATH=/bin:/usr/bin`. -/
def two_path_shell : Shell :=
  { demo_shell with environ := [("PATH".toList, "/bin:/usr/bin".toList)] }

/-- What `args[i]` reads as after the redirection scan when the scan has
not set it to `NULL`: the token itself, or what `strtok` has left of it. -/
def left_in_place (t : CStr) : CStr :=
  match parse_redir t with
  | none => t
  | some r => r.residue

/-- Whether a stored line, split at blanks as `wsh_history` does, fits
`temp_args` and has a first token that the built-in chain does not
match. -/
def replays_external (line : CStr) : Bool :=
  decide ((strtok_all line " ".toList).length < MAXARGS) &&
    match strtok_all line " ".toList with
    | [] => false
    | t0 :: _ => decide (left_in_place t0 ∉ builtin_names)

/-- The shell states reachable by executing command lines, each under the
operating system of its moment, from a state whose history ring is
empty. -/
inductive Reachable : Shell → Prop
  | start (s : Shell) (h : ∀ slot ∈ s.history_list, slot = none) : Reachable s
  | step (os : OS) (fuel : Nat) (line : CStr) (s s1 : Shell) (hs : Reachable s)
      (h : shell_step os fuel line s = .ok s1) : Reachable s1

/-- The state of a call that returned, `s` otherwise. -/
def Res.state_or (r : Res Shell) (s : Shell) : Shell :=
  match r with
  | .ok s1 => s1
  | _ => s

/-- Every line stored in the ring replays as an external command. -/
def ring_replays (ring : List (Option CStr)) : Prop :=
  ∀ line, some line ∈ ring → replays_external line = true

/-- The shell of `demo_shell` after the line `echo hi`. -/
def after_first_line : Shell :=
  (shell_step demo_os 1 "echo hi".toList demo_shell).state_or demo_shell

/-- The shell after the further line `echo b`. -/
def after_second_line : Shell :=
  (shell_step demo_os 1 "echo b".toList after_first_line).state_or demo_shell

/-- The shell after the further line `echo a`: slot 0 holds `echo a`,
slot 1 `echo b`, slot 2 `echo hi`. -/
def after_third_line : Shell :=
  (shell_step demo_os 1 "echo a".toList after_second_line).state_or demo_shell

/-- A sequence of `local` commands, each given by its array `args`, run
one after the other by `wsh_local`. -/
def run_locals : List (List (Option CStr)) → Shell → Res Shell
  | [], s => .ok s
  | args :: rest, s => (wsh_local args s).bind (run_locals rest)

/-- The operating system of `demo_os` in which `/bin/false` is the only
executable and every child exits with code 1. -/
def exit_one_os : OS :=
  { demo_os with
    access_x := fun p => p == "/bin/false".toList,
    spawn := fun _ _ => some (.exited 1) }

/-- The operating system of `demo_os` in which every `chdir` fails. -/
def no_chdir_os : OS := { demo_os with chdir_ok := fun _ => false }

/-- The operating system of `demo_os` in which no file opens. -/
def no_open_os : OS := { demo_os with fopen_ok := fun _ _ => false }

/-- The shell of `demo_shell` with the status register at 7. -/
def status_seven_shell : Shell := { demo_shell with return_var := 7 }

/-- Whether the token takes a branch of the scan that tests its stream
(`<`, `>` or `>>`) and the file named in it does not open. -/
def redir_fails (os : OS) (t : CStr) : Bool :=
  match parse_redir t with
  | none => false
  | some r =>
    match r.filename with
    | none => false
    | some f => r.checked && !os.fopen_ok f r.mode

/-- What a defined scan leaves in the slot of the token `t`: the token when
it takes no branch, `NULL` when its file opens, and otherwise what `strtok`
has left of it. -/
def slot_after (os : OS) (t : CStr) : Option CStr :=
  match parse_redir t with
  | none => some t
  | some r =>
    match r.filename with
    | none => some r.residue
    | some f => if os.fopen_ok f r.mode then none else some r.residue

/-- Lines 573-750 of `execute_commands`, what follows the scan: dispatch,
history recording, restoring the descriptors and the final test of
`cmd_executed`; `saved` holds the three saved descriptors and `scanned` the
array `args` and the state as the scan left them. -/
def after_scan (os : OS) (replay : List CStr → Shell → Res Shell)
    (saved : Option Nat × Option Nat × Option Nat) (original_line : Option CStr)
    (from_history : Bool) (scanned : List (Option CStr) × Shell) : Res Shell :=
  (dispatch os replay scanned.1 scanned.2).bind fun ran =>
    (record_history (arg_at scanned.1 0) original_line from_history ran.2 ran.1).bind
      fun s3 =>
        let s4 : Shell := { s3 with fds := restore_fds saved.1 saved.2.1 saved.2.2 s3.fds }
        .ok (if ran.2 = true then s4 else { s4 with return_var := -1 })

theorem strcmp_self (a : CStr) : strcmp a a = 0 := by
  induction a with
  | nil => rfl
  | cons c s ih => simp [strcmp, ih]

theorem strcmp_eq_zero {a b : CStr} (h : strcmp a b = 0) : a = b := by
  induction a generalizing b with
  | nil => cases b with
    | nil => rfl
    | cons c t => simp [strcmp] at h
  | cons c s ih => cases b with
    | nil => simp [strcmp] at h
    | cons d t =>
      simp only [strcmp] at h
      split at h
      · simp at h
      · split at h
        · simp at h
        · have hcd : c.toNat = d.toNat := by omega
          have hc : c = d := Char.ext (UInt32.ext hcd)
          rw [hc, ih h]

theorem strcmp_eq_zero_iff (a b : CStr) : strcmp a b = 0 ↔ a = b :=
  ⟨strcmp_eq_zero, fun h => h ▸ strcmp_self a⟩

/-! ## Variable substitution (C1) -/

theorem substitute_var_loop_eq (vars : List LocalVar) (name : CStr) :
    substitute_var_loop vars name =
      match (vars.map (fun v => (v.name, v.value))).find? (fun p => decide (p.1 = name)) with
      | some p => p.2
      | none => [] := by
  induction vars with
  | nil => rfl
  | cons v rest ih =>
    by_cases h : v.name = name
    · simp [substitute_var_loop, strcmp_eq_zero_iff, h]
    · simp [substitute_var_loop, strcmp_eq_zero_iff, h, ih]

/-- C1: `substitute_var` equals the reference definition for every token,
environment and local-variable table: a token not starting with `$` is
returned unchanged; otherwise the environment value of the name wins (also
when a local variable of that name exists), then the local variable, then
the empty string. -/
theorem substitute_var_refines_spec (s : Shell) (token : CStr) :
    substitute_var s token =
      substitute_spec (getenv s.environ)
        (s.local_variables.map (fun v => (v.name, v.value))) token := by
  cases token with
  | nil => simp [substitute_var, substitute_spec, char_at]
  | cons c name =>
    by_cases hc : c = '$'
    · subst hc
      simp only [substitute_var, substitute_spec, char_at, List.getD_cons_zero, ne_eq,
        not_true_eq_false, if_false, List.drop_succ_cons, List.drop_zero]
      cases getenv s.environ name with
      | some v => rfl
      | none => exact substitute_var_loop_eq _ _
    · have : substitute_spec (getenv s.environ)
          (s.local_variables.map (fun v => (v.name, v.value))) (c :: name) = c :: name := by
        unfold substitute_spec
        split
        · rename_i heq
          simp at heq
          exact absurd heq.1 hc
        · rfl
      rw [this]
      simp [substitute_var, char_at, hc]

/-! ## History recording (C2) -/

theorem res_bind_ok {α β : Type} {r : Res α} {f : α → Res β} {b : β}
    (h : r.bind f = .ok b) : ∃ a, r = .ok a ∧ f a = .ok b := by
  cases r with
  | ok a => exact ⟨a, rfl, h⟩
  | undefined => cases h
  | exited c => cases h
  | out_of_fuel => cases h

theorem launch_path_history (os : OS) (path : CStr) (argv : List CStr) (s : Shell) :
    (launch_path os path argv s).history_list = s.history_list := by
  unfold launch_path
  split <;> rfl

theorem launch_direct_history (os : OS) (path : CStr) (argv : List CStr) (s : Shell) :
    (launch_direct os path argv s).history_list = s.history_list := by
  unfold launch_direct
  split <;> rfl

theorem path_scan_history (os : OS) (cmd : CStr) (argv : List CStr) (dirs : List CStr) :
    ∀ acc : Shell × Bool,
      (path_scan os cmd argv dirs acc).1.history_list = acc.1.history_list := by
  induction dirs with
  | nil => intro acc; rfl
  | cons dir rest ih =>
    intro acc
    simp only [path_scan]
    split
    · rw [ih]; exact launch_path_history _ _ _ _
    · exact ih acc

theorem path_scan_executed (os : OS) (cmd : CStr) (argv : List CStr) (dirs : List CStr) :
    ∀ acc : Shell × Bool,
      (path_scan os cmd argv dirs acc).2 =
        (acc.2 || dirs.any (fun dir => os.access_x (full_path dir cmd))) := by
  induction dirs with
  | nil => intro acc; simp [path_scan]
  | cons dir rest ih =>
    intro acc
    simp only [path_scan, List.any_cons]
    split
    · rename_i h
      rw [ih, h]; simp
    · rename_i h
      rw [ih]; simp [h]

/-- The built-in chain falls through for a name that is not a built-in. -/
theorem dispatch_external {os : OS} {replay : List CStr → Shell → Res Shell}
    {args : List (Option CStr)} {s : Shell} {name : CStr}
    (h0 : arg_at args 0 = some name) (hn : name ∉ builtin_names) :
    dispatch os replay args s =
      if os.access_x name then .ok (launch_direct os name (argv_of args) s, true)
      else
        match getenv s.environ "PATH".toList with
        | none => .undefined
        | some path =>
          .ok (path_scan os name (argv_of args) (strtok_all path ":".toList) (s, false)) := by
  simp only [builtin_names, List.mem_cons, List.mem_singleton, not_or, List.not_mem_nil,
    or_false] at hn
  obtain ⟨h1, h2, h3, h4, h5, h6, h7⟩ := hn
  simp only [dispatch, h0, strcmp_eq_zero_iff, h1, h2, h3, h4, h5, h6, h7, if_false]

theorem shift_history_length (h : List (Option CStr)) (j : Nat) :
    (shift_history h j).length = h.length := by
  induction j generalizing h with
  | zero => rfl
  | succ j ih => simp [shift_history, ih]

theorem shift_history_getElem? (j : Nat) :
    ∀ (h : List (Option CStr)), j < h.length → ∀ i : Nat,
      (shift_history h j)[i]? = if 1 ≤ i ∧ i ≤ j then h[i - 1]? else h[i]? := by
  induction j with
  | zero =>
    intro h _ i
    have : ¬ (1 ≤ i ∧ i ≤ 0) := by omega
    rw [if_neg this]
    rfl
  | succ j ih =>
    intro h hj i
    simp only [shift_history]
    rw [ih _ (by simp; omega)]
    by_cases h1 : 1 ≤ i ∧ i ≤ j
    · have h2 : 1 ≤ i ∧ i ≤ j + 1 := by omega
      rw [if_pos h1, if_pos h2, List.getElem?_set]
      have : ¬ (j + 1 = i - 1) := by omega
      simp [this]
    · rw [if_neg h1]
      by_cases h3 : i = j + 1
      · subst h3
        have h2 : 1 ≤ j + 1 ∧ j + 1 ≤ j + 1 := by omega
        rw [if_pos h2, List.getElem?_set]
        have hj2 : j < h.length := by omega
        simp [hj, List.getD_eq_getElem?_getD, List.getElem?_eq_getElem hj2]
      · have h2 : ¬ (1 ≤ i ∧ i ≤ j + 1) := by omega
        rw [if_neg h2, List.getElem?_set]
        have : ¬ (j + 1 = i) := by omega
        simp [this]

/-- The shift loop followed by the store into slot 0 is the reference
insertion. -/
theorem shift_history_insert (line : CStr) (slot0 : Option CStr) (rest : List (Option CStr)) :
    (shift_history (slot0 :: rest) ((slot0 :: rest).length - 1)).set 0 (some line) =
      (List.range (slot0 :: rest).length).map
        (fun i => if i = 0 then some line else (slot0 :: rest).getD (i - 1) none) := by
  apply List.ext_getElem?
  intro i
  rw [List.getElem?_set]
  by_cases hi : i = 0
  · subst hi
    simp [shift_history_length]
  · have h0 : ¬ (0 = i) := by omega
    rw [if_neg h0, shift_history_getElem? _ _ (by simp)]
    simp only [List.length_cons, Nat.add_sub_cancel, List.getElem?_map, List.getElem?_range']
    by_cases hlt : i < rest.length + 1
    · have h1 : 1 ≤ i ∧ i ≤ rest.length := by omega
      rw [if_pos h1]
      have : i - 1 < (slot0 :: rest).length := by simp; omega
      simp [List.getElem?_range, hlt, hi, List.getD_eq_getElem?_getD, List.getElem?_eq_getElem this]
    · have h1 : ¬ (1 ≤ i ∧ i ≤ rest.length) := by omega
      rw [if_neg h1]
      have h2 : (slot0 :: rest).length ≤ i := by simp; omega
      rw [List.getElem?_eq_none h2]
      have h3 : (List.range (rest.length + 1)).length ≤ i := by simp; omega
      rw [List.getElem?_eq_none h3]
      rfl

theorem record_history_eq (name line : CStr) (s : Shell) (hn : name ∉ builtin_names)
    (hc : 1 ≤ s.history_list.length) :
    record_history (some name) (some line) false true s =
      .ok { s with history_list := record_spec line s.history_list } := by
  unfold record_history
  simp only [hn, not_false_eq_true, and_self, if_true]
  cases hh : s.history_list with
  | nil => rw [hh] at hc; simp at hc
  | cons slot0 rest =>
    simp only []
    unfold record_spec
    by_cases heq : slot0 = some line
    · subst heq
      simp only [Option.getD_some, strcmp_self, ne_eq, not_true_eq_false, or_false,
        reduceCtorEq, if_false, List.head?_cons, if_true]
      cases s
      simp only at hh
      simp [hh]
    · have h1 : (slot0 = none ∨ strcmp (slot0.getD []) line ≠ 0) := by
        cases slot0 with
        | none => left; rfl
        | some x =>
          right
          intro h
          exact heq (by rw [strcmp_eq_zero (a := x) (b := line) h])
      rw [if_pos h1, shift_history_insert]
      simp [heq]

theorem apply_redir_frame {os : OS} {r : Redir} {s s1 : Shell} {slot : Option CStr}
    (h : apply_redir os r s = .ok (slot, s1)) :
    s1.history_list = s.history_list ∧ s1.local_variables = s.local_variables ∧
      s1.environ = s.environ ∧ s1.chdirs = s.chdirs ∧ s1.out = s.out ∧
      s1.launched = s.launched := by
  unfold apply_redir at h
  split at h
  · cases h
  · split at h
    · cases h; simp
    · split at h
      · cases h; simp
      · cases h

theorem redirect_loop_frame {os : OS} (args : List CStr) :
    ∀ {s s1 : Shell} {slots : List (Option CStr)},
      redirect_loop os args s = .ok (slots, s1) →
      s1.history_list = s.history_list ∧ s1.local_variables = s.local_variables ∧
        s1.environ = s.environ ∧ s1.chdirs = s.chdirs ∧ s1.out = s.out ∧
        s1.launched = s.launched := by
  induction args with
  | nil =>
    intro s s1 slots h
    simp only [redirect_loop] at h
    cases h
    simp
  | cons arg rest ih =>
    intro s s1 slots h
    simp only [redirect_loop] at h
    split at h
    · obtain ⟨p, hp, h2⟩ := res_bind_ok h
      cases h2
      exact ih hp
    · obtain ⟨⟨slot, sq⟩, hq, h2⟩ := res_bind_ok h
      obtain ⟨p, hp, h3⟩ := res_bind_ok h2
      cases h3
      have h1 := apply_redir_frame hq
      have h4 := ih hp
      simp only [h4, h1, and_self]


theorem scan_args_frame {os : OS} {args : List CStr} {s s1 : Shell}
    {slots : List (Option CStr)} (h : scan_args os args s = .ok (slots, s1)) :
    s1.history_list = s.history_list ∧ s1.local_variables = s.local_variables ∧
      s1.environ = s.environ ∧ s1.chdirs = s.chdirs ∧ s1.out = s.out ∧
      s1.launched = s.launched := by
  unfold scan_args at h
  have h1 := redirect_loop_frame args h
  simpa using h1

/-- A command that is not a built-in and is found runs, and leaves the
history ring to the recording step. -/
theorem dispatch_found {os : OS} (replay : List CStr → Shell → Res Shell)
    {args : List (Option CStr)} {s : Shell} {name : CStr}
    (h0 : arg_at args 0 = some name) (hn : name ∉ builtin_names)
    (hrun : cmd_found os name s = true) :
    ∃ s1, dispatch os replay args s = .ok (s1, true) ∧ s1.history_list = s.history_list := by
  rw [dispatch_external h0 hn]
  unfold cmd_found at hrun
  by_cases ha : os.access_x name = true
  · rw [if_pos ha]
    exact ⟨_, rfl, launch_direct_history _ _ _ _⟩
  · rw [if_neg ha]
    simp only [ha, Bool.false_or] at hrun
    cases hp : getenv s.environ "PATH".toList with
    | none => rw [hp] at hrun; simp at hrun
    | some path =>
      rw [hp] at hrun
      simp only at hrun
      refine ⟨(path_scan os name (argv_of args) (strtok_all path ":".toList) (s, false)).1, ?_,
        path_scan_history _ _ _ _ _⟩
      have h2 := path_scan_executed os name (argv_of args) (strtok_all path ":".toList) (s, false)
      rw [hrun] at h2
      simp only [Bool.false_or] at h2
      rw [← h2]

theorem record_spec_length (line : CStr) (ring : List (Option CStr)) :
    (record_spec line ring).length = ring.length := by
  unfold record_spec
  split <;> simp

/-- C2: for a ring of capacity at least 1 and a command line that is not
from history, whose command is not a built-in and is executed (directly or
through `PATH`), `execute_commands` returns and the ring afterwards is the
reference `record` of the line: unchanged when slot 0 already holds the
line; otherwise the line in slot 0, every former slot `i` below the last
in slot `i + 1`, and the same capacity. -/
theorem execute_commands_records (os : OS) (fuel : Nat) (args : List CStr)
    (line name : CStr) (s : Shell)
    (hc : 1 ≤ s.history_list.length)
    (hname : command_name os args s = some name)
    (hext : name ∉ builtin_names)
    (hrun : cmd_found os name s = true) :
    ∃ s1, execute_commands os (fuel + 1) args (some line) false s = .ok s1 ∧
      s1.history_list = record_spec line s.history_list ∧
      s1.history_list.length = s.history_list.length ∧
      (s.history_list.head? = some (some line) → s1.history_list = s.history_list) ∧
      (s.history_list.head? ≠ some (some line) →
        s1.history_list[0]? = some (some line) ∧
        ∀ i, i + 1 < s.history_list.length → s1.history_list[i + 1]? = s.history_list[i]?) := by
  unfold command_name at hname
  cases hscan : scan_args os args s with
  | ok scanned =>
    rw [hscan] at hname
    simp only at hname
    obtain ⟨slots, s0⟩ := scanned
    have hf := scan_args_frame hscan
    have hrun0 : cmd_found os name s0 = true := by
      unfold cmd_found at hrun ⊢
      rw [hf.2.2.1]; exact hrun
    obtain ⟨s2, hd, hh⟩ := dispatch_found
      (fun temp_args s1 => execute_commands os fuel temp_args none true s1)
      hname hext hrun0
    have hlen : 1 ≤ s2.history_list.length := by rw [hh, hf.1]; exact hc
    have hring : s2.history_list = s.history_list := by rw [hh, hf.1]
    have hexec : execute_commands os (fuel + 1) args (some line) false s =
        .ok { s2 with
          history_list := record_spec line s2.history_list,
          fds := restore_fds (save_std s.fds).1.1 (save_std s.fds).1.2.1
            (save_std s.fds).1.2.2 s2.fds } := by
      simp only [execute_commands, execute_body, hscan, Res.bind, hd, hname,
        record_history_eq name line s2 hext hlen, if_true]
    refine ⟨_, hexec, ?_, ?_, ?_, ?_⟩
    · simp only [hring]
    · simp only [hring, record_spec_length]
    · intro h0
      simp only [hring, record_spec, h0, if_true]
    · intro h0
      simp only [hring, record_spec, h0, if_false]
      constructor
      · have : 0 < s.history_list.length := hc
        simp [List.getElem?_range, this]
      · intro i hi
        have h1 : i < s.history_list.length := by omega
        simp [List.getElem?_range, hi, List.getElem?_eq_getElem h1]
  | undefined => rw [hscan] at hname; simp at hname
  | exited c => rw [hscan] at hname; simp at hname
  | out_of_fuel => rw [hscan] at hname; simp at hname

/-- The recording property at the line `echo hi` run on a fresh shell. -/
theorem execute_commands_records_witness :
    ∃ s1, execute_commands demo_os 1 ["echo".toList, "hi".toList] (some "echo hi".toList)
        false demo_shell = .ok s1 ∧
      s1.history_list = record_spec "echo hi".toList demo_shell.history_list ∧
      s1.history_list.length = demo_shell.history_list.length ∧
      (demo_shell.history_list.head? = some (some "echo hi".toList) →
        s1.history_list = demo_shell.history_list) ∧
      (demo_shell.history_list.head? ≠ some (some "echo hi".toList) →
        s1.history_list[0]? = some (some "echo hi".toList) ∧
        ∀ i, i + 1 < demo_shell.history_list.length →
          s1.history_list[i + 1]? = demo_shell.history_list[i]?) :=
  execute_commands_records demo_os 0 ["echo".toList, "hi".toList] "echo hi".toList
    "echo".toList demo_shell (by decide) (by decide) (by decide) (by decide)

/-! ## Resizing the history (C3) -/

theorem null_fill_length (k : Nat) : ∀ (h : List (Option CStr)) (i : Nat),
    (null_fill h i k).length = h.length := by
  induction k with
  | zero => intro h i; rfl
  | succ k ih => intro h i; simp [null_fill, ih]

theorem null_fill_getElem? (k : Nat) : ∀ (h : List (Option CStr)) (i j : Nat),
    (null_fill h i k)[j]? =
      if i ≤ j ∧ j < i + k ∧ j < h.length then some none else h[j]? := by
  induction k with
  | zero =>
    intro h i j
    have : ¬ (i ≤ j ∧ j < i + 0 ∧ j < h.length) := by omega
    rw [if_neg this]
    rfl
  | succ k ih =>
    intro h i j
    simp only [null_fill]
    rw [ih, List.getElem?_set, List.length_set]
    by_cases hij : i = j
    · subst hij
      by_cases hl : i < h.length
      · have h1 : ¬ (i + 1 ≤ i ∧ i < i + 1 + k ∧ i < h.length) := by omega
        have h2 : (i ≤ i ∧ i < i + (k + 1) ∧ i < h.length) := by omega
        simp [h1, h2, hl]
      · have h1 : ¬ (i + 1 ≤ i ∧ i < i + 1 + k ∧ i < h.length) := by omega
        have h2 : ¬ (i ≤ i ∧ i < i + (k + 1) ∧ i < h.length) := by omega
        have h3 : h.length ≤ i := by omega
        simp [h1, h2, hl, List.getElem?_eq_none h3]
    · by_cases hc : i + 1 ≤ j ∧ j < i + 1 + k ∧ j < h.length
      · have h2 : (i ≤ j ∧ j < i + (k + 1) ∧ j < h.length) := by omega
        rw [if_pos hc, if_pos h2]
      · have h2 : ¬ (i ≤ j ∧ j < i + (k + 1) ∧ j < h.length) := by omega
        rw [if_neg hc, if_neg h2, if_neg hij]

/-- The resize keeps the first slots and leaves every added slot empty,
whatever the grown block held. -/
theorem history_resize_eq (os : OS) (h : List (Option CStr)) (n : Nat) :
    history_resize os h n = h.take n ++ List.replicate (n - h.length) none := by
  unfold history_resize
  by_cases hn : n > h.length
  · simp only [hn, if_true]
    apply List.ext_getElem?
    intro j
    have hlen : (realloc_history os h n).length = n := by
      simp [realloc_history]; omega
    rw [null_fill_getElem?, hlen]
    have htake : h.take n = h := List.take_of_length_le (by omega)
    by_cases hj : h.length ≤ j ∧ j < h.length + (n - h.length) ∧ j < n
    · rw [if_pos hj, htake, List.getElem?_append_right hj.1, List.getElem?_replicate]
      have : j - h.length < n - h.length := by omega
      simp [this]
    · rw [if_neg hj]
      unfold realloc_history
      rw [htake]
      by_cases hj2 : j < h.length
      · rw [List.getElem?_append_left hj2, List.getElem?_append_left hj2]
      · have h3 : h.length ≤ j := by omega
        have h4 : n ≤ j := by omega
        rw [List.getElem?_eq_none (by simp; omega), List.getElem?_eq_none (by simp; omega)]
  · simp only [hn, if_false]
    unfold realloc_history
    have : n - h.length = 0 := by omega
    simp [this]

theorem history_show_replicate_none (k : Nat) :
    ∀ i, history_show (List.replicate k none) i = [] := by
  induction k with
  | zero => intro i; rfl
  | succ k ih => intro i; simp only [List.replicate_succ, history_show, ih]

theorem history_show_append_none (l : List (Option CStr)) (k : Nat) :
    ∀ i, history_show (l ++ List.replicate k none) i = history_show l i := by
  induction l with
  | nil =>
    intro i
    simp only [List.nil_append, history_show_replicate_none, history_show]
  | cons a t ih =>
    intro i
    cases a with
    | none =>
      show history_show (none :: (t ++ List.replicate k none)) i = _
      simp only [history_show, ih]
    | some x =>
      show history_show (some x :: (t ++ List.replicate k none)) i = _
      simp only [history_show, ih]

theorem history_show_length_le (l : List (Option CStr)) :
    ∀ i, (history_show l i).length ≤ l.length := by
  induction l with
  | nil => intro i; simp [history_show]
  | cons a t ih =>
    intro i
    cases a with
    | none => simp only [history_show, List.length_cons]; exact Nat.le_succ_of_le (ih _)
    | some x => simp only [history_show, List.length_cons]; exact Nat.succ_le_succ (ih _)

/-- The value of `atoi` is an `int`. -/
theorem atoi_range (s : CStr) : -2147483648 ≤ atoi s ∧ atoi s < 2147483648 := by
  unfold atoi to_int
  omega

/-- On a string that starts with a digit and writes a number within the
range of `int`, `atoi` returns that number. -/
theorem atoi_of_numeral (N : CStr) (hd : isdigit (char_at N 0) = true)
    (hv : atoi_digits N 0 < 2147483648) : atoi N = (atoi_digits N 0 : Int) := by
  cases N with
  | nil => exact absurd hd (by decide)
  | cons c t =>
    have hc : isdigit c = true := hd
    have hsp : isspace c = false := by
      simp only [isdigit, Bool.and_eq_true, decide_eq_true_eq] at hc
      simp only [isspace, Bool.or_eq_false_iff, Bool.and_eq_false_iff, beq_eq_false_iff_ne,
        decide_eq_false_iff_not]
      omega
    have hdrop : (c :: t).dropWhile isspace = c :: t := by
      simp [List.dropWhile, hsp]
    have hval : strtol_value (c :: t) = (atoi_digits (c :: t) 0 : Int) := by
      unfold strtol_value
      rw [hdrop]
      split
      · rename_i heq
        injection heq with h1 _
        rw [h1] at hc
        exact absurd hc (by decide)
      · rename_i heq
        injection heq with h1 _
        rw [h1] at hc
        exact absurd hc (by decide)
      · rfl
    unfold atoi
    rw [hval]
    unfold strtol_clamp to_int
    have h0 : (0 : Int) ≤ (atoi_digits (c :: t) 0 : Int) := Int.ofNat_nonneg _
    have h1 : ((atoi_digits (c :: t) 0 : Nat) : Int) < 2147483648 := by exact_mod_cast hv
    split
    · omega
    · split
      · omega
      · omega

/-- Beyond the range of `int` the value of `atoi` is the truncated one:
`history set 4294967298` makes a ring of 2 slots, and
`history set 2147483648` is refused. -/
theorem history_set_beyond_int :
    atoi "4294967298".toList = 2 ∧ atoi "2147483648".toList = -2147483648 ∧
    (wsh_history demo_os (fun _ s => .ok s)
        [some "history".toList, some "set".toList, some "4294967298".toList]
        full_ring_shell).bind (fun s1 => .ok s1.history_list) =
      .ok [some "A".toList, some "B".toList] ∧
    (wsh_history demo_os (fun _ s => .ok s)
        [some "history".toList, some "set".toList, some "2147483648".toList]
        full_ring_shell).bind (fun s1 => .ok s1.history_list) =
      .ok full_ring_shell.history_list := by
  refine ⟨by decide, by decide, by decide, by decide⟩

/-- C3: for `history set N` where `N` starts with a digit and `atoi(N)`, an
`int`, is a positive `n` (for a numeral within the range of `int`, the
number it writes), `wsh_history` returns and the ring has exactly `n`
slots, slot `i` is the former slot `i` for every `i < min(n, c)`, every
slot `i` with `c <= i < n` is empty, and the display lists the populated
ones of the first `n` former slots, so at most `n` entries. -/
theorem wsh_history_set (os : OS) (replay : List CStr → Shell → Res Shell)
    (args : List (Option CStr)) (s : Shell) (N : CStr) (n : Nat)
    (hset : arg_at args 1 = some "set".toList)
    (harg : arg_at args 2 = some N)
    (hdigit : isdigit (char_at N 0) = true)
    (hatoi : atoi N = (n : Int))
    (hpos : 0 < n) :
    ∃ s1, wsh_history os replay args s = .ok s1 ∧
      s1.history_list.length = n ∧
      (∀ i, i < min n s.history_list.length → s1.history_list[i]? = s.history_list[i]?) ∧
      (∀ i, s.history_list.length ≤ i → i < n → s1.history_list[i]? = some none) ∧
      history_show s1.history_list 0 = history_show (s.history_list.take n) 0 ∧
      (history_show s1.history_list 0).length ≤ n ∧
      n < 2147483648 := by
  have hpos2 : (n : Int) > 0 := by exact_mod_cast hpos
  have hint : n < 2147483648 := by
    have h := (atoi_range N).2
    rw [hatoi] at h
    exact_mod_cast h
  refine ⟨{ s with history_list := history_resize os s.history_list n, return_var := 0 },
    ?_, ?_, ?_, ?_, ?_, ?_, hint⟩
  · simp [wsh_history, wsh_history_chain, hset, harg, strcmp_self, hdigit, hatoi, hpos2, Res.bind]
  · simp only [history_resize_eq, List.length_append, List.length_take, List.length_replicate]
    omega
  · intro i hi
    simp only [history_resize_eq]
    have h1 : i < (s.history_list.take n).length := by simp; omega
    rw [List.getElem?_append_left h1, List.getElem?_take]
    simp; omega
  · intro i hi hin
    simp only [history_resize_eq]
    have h1 : (s.history_list.take n).length ≤ i := by simp; omega
    rw [List.getElem?_append_right h1, List.getElem?_replicate]
    have h2 : (s.history_list.take n).length = s.history_list.length := by
      simp; omega
    have : i - (s.history_list.take n).length < n - s.history_list.length := by
      rw [h2]; omega
    rw [if_pos this]
  · simp only [history_resize_eq, history_show_append_none]
  · simp only [history_resize_eq, history_show_append_none]
    refine Nat.le_trans (history_show_length_le _ _) ?_
    simp

/-- The resize property at the ring `[A, B, C, D, E]` and `history set 2`:
the display is `[A, B]`. -/
theorem wsh_history_set_witness :
    ∃ s1, wsh_history demo_os (fun _ s => .ok s)
        [some "history".toList, some "set".toList, some "2".toList] full_ring_shell = .ok s1 ∧
      s1.history_list.length = 2 ∧
      history_show s1.history_list 0 = [(1, "A".toList), (2, "B".toList)] := by
  obtain ⟨s1, h1, h2, _, _, h5, _, _⟩ :=
    wsh_history_set demo_os (fun _ s => .ok s)
      [some "history".toList, some "set".toList, some "2".toList] full_ring_shell
      "2".toList 2 (by decide) (by decide) (by decide) (by decide) (by decide)
  exact ⟨s1, h1, h2, by rw [h5]; decide⟩

/-! ## Local variables (C5, C6) -/

theorem local_search_none {name : CStr} : ∀ {vars : List LocalVar} {k : Nat},
    local_search vars name k = none ↔ ∀ v ∈ vars, v.name ≠ name := by
  intro vars
  induction vars with
  | nil => intro k; simp [local_search]
  | cons v rest ih =>
    intro k
    by_cases h : v.name = name
    · simp [local_search, strcmp_eq_zero_iff, h]
    · simp [local_search, strcmp_eq_zero_iff, h, ih]

theorem local_search_some {name : CStr} : ∀ {vars : List LocalVar} {k i : Nat},
    local_search vars name k = some i →
      ∃ j v, i = k + j ∧ vars[j]? = some v ∧ v.name = name ∧
        ∀ m w, m < j → vars[m]? = some w → w.name ≠ name := by
  intro vars
  induction vars with
  | nil => intro k i h; simp [local_search] at h
  | cons v rest ih =>
    intro k i h
    by_cases hv : v.name = name
    · simp only [local_search, strcmp_eq_zero_iff, hv, if_true, Option.some.injEq] at h
      refine ⟨0, v, by omega, by simp, hv, ?_⟩
      intro m w hm
      omega
    · simp only [local_search, strcmp_eq_zero_iff, hv, if_false] at h
      obtain ⟨j, u, hi, hu, hun, hmin⟩ := ih h
      refine ⟨j + 1, u, by omega, by simpa using hu, hun, ?_⟩
      intro m w hm hw
      cases m with
      | zero =>
        simp only [List.getElem?_cons_zero, Option.some.injEq] at hw
        rw [← hw]; exact hv
      | succ m =>
        simp only [List.getElem?_cons_succ] at hw
        exact hmin m w (by omega) hw

/-- With the name and a non-empty value as `split_assignment` reads them
from the argument, `wsh_local` returns; when an entry of that name exists
the names in the store keep their order and only the first entry of that
name changes, taking the value; when none exists the new store is the old
one with the pair appended. -/
theorem wsh_local_sets_split (args : List (Option CStr)) (s : Shell) (a NAME VALUE : CStr)
    (harg : arg_at args 1 = some a)
    (hsplit : split_assignment a = some (NAME, VALUE))
    (hval : VALUE ≠ []) :
    ∃ s1, wsh_local args s = .ok s1 ∧
      ((∃ v ∈ s.local_variables, v.name = NAME) →
        ∃ i v, s.local_variables[i]? = some v ∧ v.name = NAME ∧
          (∀ m w, m < i → s.local_variables[m]? = some w → w.name ≠ NAME) ∧
          s1.local_variables = s.local_variables.set i { name := NAME, value := VALUE } ∧
          s1.local_variables.map (fun x => x.name) =
            s.local_variables.map (fun x => x.name) ∧
          (∀ m, m ≠ i → s1.local_variables[m]? = s.local_variables[m]?)) ∧
      ((∀ v ∈ s.local_variables, v.name ≠ NAME) →
        s1.local_variables = s.local_variables ++ [{ name := NAME, value := VALUE }]) ∧
      (wsh_vars s1).out = s1.out ++ s1.local_variables.map (fun x => x.name ++ '=' :: x.value) := by
  have hne : ¬ (strcmp VALUE [] = 0) := by
    rw [strcmp_eq_zero_iff]; exact hval
  cases hs : local_search s.local_variables NAME 0 with
  | none =>
    have hall := local_search_none.mp hs
    refine ⟨{ s with local_variables :=
        s.local_variables ++ [{ name := NAME, value := VALUE }] }, ?_, ?_, ?_, rfl⟩
    · simp only [wsh_local, harg, hsplit, hs]
    · intro ⟨v, hv, hvn⟩
      exact absurd hvn (hall v hv)
    · intro _; rfl
  | some i =>
    obtain ⟨j, v, hij, hv, hvn, hmin⟩ := local_search_some hs
    have hi : i = j := by omega
    subst hi
    refine ⟨{ s with
        local_variables := s.local_variables.set i { name := v.name, value := VALUE },
        return_var := 0 }, ?_, ?_, ?_, rfl⟩
    · simp only [wsh_local, harg, hsplit, hs, hne, if_false, List.get?_eq_getElem?, hv]
    · intro _
      refine ⟨i, v, hv, hvn, hmin, by simp only [hvn], ?_, ?_⟩
      · apply List.ext_getElem?
        intro m
        simp only [List.getElem?_map, List.getElem?_set]
        by_cases hm : i = m
        · subst hm
          have hlt : i < s.local_variables.length := by
            rcases Nat.lt_or_ge i s.local_variables.length with h | h
            · exact h
            · rw [List.getElem?_eq_none h] at hv; cases hv
          simp [hv, hlt]
        · simp [hm]
      · intro m hm
        simp only [List.getElem?_set]
        rw [if_neg (fun h => hm h.symm)]
    · intro hall
      have hmem : v ∈ s.local_variables := List.getElem?_mem hv
      exact absurd hvn (hall v hmem)




theorem takeWhile_before_sep (x y : CStr) (hx : '=' ∉ x) :
    (x ++ '=' :: y).takeWhile (fun c => !decide (c ∈ "=".toList)) = x ∧
      (x ++ '=' :: y).dropWhile (fun c => !decide (c ∈ "=".toList)) = '=' :: y := by
  induction x with
  | nil => simp [List.takeWhile, List.dropWhile]
  | cons c t ih =>
    have hc : c ≠ '=' := fun h => hx (by simp [h])
    have ht : '=' ∉ t := fun h => hx (by simp [h])
    simpa [List.takeWhile, List.dropWhile, hc] using ih ht

theorem takeWhile_no_sep (x : CStr) (hx : '=' ∉ x) :
    x.takeWhile (fun c => !decide (c ∈ "=".toList)) = x ∧
      x.dropWhile (fun c => !decide (c ∈ "=".toList)) = [] := by
  induction x with
  | nil => simp
  | cons c t ih =>
    have hc : c ≠ '=' := fun h => hx (by simp [h])
    have ht : '=' ∉ t := fun h => hx (by simp [h])
    simpa [List.takeWhile, List.dropWhile, hc] using ih ht

/-- On an argument `NAME=VALUE` whose name is not empty and in which
neither piece holds a further `=`, the split gives the two pieces. -/
theorem split_assignment_plain (NAME VALUE : CStr) (hn : NAME ≠ [])
    (hn2 : '=' ∉ NAME) (hv : '=' ∉ VALUE) :
    split_assignment (NAME ++ '=' :: VALUE) = some (NAME, VALUE) := by
  cases NAME with
  | nil => exact absurd rfl hn
  | cons c t =>
    have hc : c ≠ '=' := fun h => hn2 (by simp [h])
    have h1 := takeWhile_before_sep (c :: t) VALUE hn2
    have hs : strtok (c :: t ++ '=' :: VALUE) "=".toList = some (c :: t, VALUE) := by
      unfold strtok
      have hd : ((c :: t) ++ '=' :: VALUE).dropWhile (fun c => decide (c ∈ "=".toList)) =
          (c :: t) ++ '=' :: VALUE := by
        simp [List.dropWhile, hc]
      simp only [hd, h1.1, h1.2]
      simp
    unfold split_assignment
    rw [hs]
    cases VALUE with
    | nil => simp [strtok]
    | cons d u =>
      have hd : d ≠ '=' := fun h => hv (by simp [h])
      have h2 := takeWhile_no_sep (d :: u) hv
      have hs2 : strtok (d :: u) "=".toList = some (d :: u, []) := by
        unfold strtok
        have hdw : (d :: u).dropWhile (fun c => decide (c ∈ "=".toList)) = d :: u := by
          simp [List.dropWhile, hd]
        simp only [hdw, h2.1, h2.2]
        simp
      simp only [hs2]

theorem shift_up_length (k : Nat) : ∀ (vars : List LocalVar) (j : Nat),
    (shift_up vars j k).length = vars.length := by
  induction k with
  | zero => intro vars j; rfl
  | succ k ih =>
    intro vars j
    simp only [shift_up]
    split
    · simp [ih]
    · rfl

theorem shift_up_getElem? (k : Nat) : ∀ (vars : List LocalVar) (j m : Nat),
    j + k < vars.length →
      (shift_up vars j k)[m]? = if j ≤ m ∧ m < j + k then vars[m + 1]? else vars[m]? := by
  induction k with
  | zero =>
    intro vars j m _
    have : ¬ (j ≤ m ∧ m < j + 0) := by omega
    rw [if_neg this]; rfl
  | succ k ih =>
    intro vars j m hlen
    have hj1 : j + 1 < vars.length := by omega
    simp only [shift_up, List.get?_eq_getElem?, List.getElem?_eq_getElem hj1]
    rw [ih _ _ _ (by simp; omega)]
    simp only [List.getElem?_set]
    by_cases hm : j = m
    · subst hm
      have h1 : ¬ (j + 1 ≤ j ∧ j < j + 1 + k) := by omega
      have h2 : (j ≤ j ∧ j < j + (k + 1)) := by omega
      have h3 : j < vars.length := by omega
      simp [h1, h2, h3]
    · by_cases hc : j + 1 ≤ m ∧ m < j + 1 + k
      · have h2 : (j ≤ m ∧ m < j + (k + 1)) := by omega
        have h3 : ¬ (j = m + 1) := by omega
        rw [if_pos hc, if_pos h2, if_neg h3]
      · have h2 : ¬ (j ≤ m ∧ m < j + (k + 1)) := by omega
        rw [if_neg hc, if_neg h2, if_neg hm]

/-- The shift loop and the shrinking `realloc` of `wsh_local` remove the
entry at index `i`. -/
theorem shift_up_take (vars : List LocalVar) (i : Nat) (hi : i < vars.length) :
    (shift_up vars i (vars.length - 1 - i)).take (vars.length - 1) = vars.eraseIdx i := by
  apply List.ext_getElem?
  intro m
  rw [List.getElem?_take, List.getElem?_eraseIdx]
  by_cases hm : m < vars.length - 1
  · rw [if_pos hm, shift_up_getElem? _ _ _ _ (by omega)]
    by_cases h1 : m < i
    · have : ¬ (i ≤ m ∧ m < i + (vars.length - 1 - i)) := by omega
      rw [if_neg this, if_pos h1]
    · have : (i ≤ m ∧ m < i + (vars.length - 1 - i)) := by omega
      rw [if_pos this, if_neg h1]
  · rw [if_neg hm]
    by_cases h1 : m < i
    · omega
    · rw [if_neg h1, List.getElem?_eq_none (by omega)]

/-- With an empty value and an entry of that name present, `wsh_local`
removes the first entry of that name and keeps the others in order. -/
theorem wsh_local_unset_present (args : List (Option CStr)) (s : Shell) (a NAME : CStr)
    (harg : arg_at args 1 = some a)
    (hsplit : split_assignment a = some (NAME, []))
    (hex : ∃ v ∈ s.local_variables, v.name = NAME) :
    ∃ i v, s.local_variables[i]? = some v ∧ v.name = NAME ∧
      (∀ m w, m < i → s.local_variables[m]? = some w → w.name ≠ NAME) ∧
      wsh_local args s = .ok { s with local_variables := s.local_variables.eraseIdx i } := by
  cases hs : local_search s.local_variables NAME 0 with
  | none =>
    obtain ⟨v, hv, hvn⟩ := hex
    exact absurd hvn (local_search_none.mp hs v hv)
  | some i =>
    obtain ⟨j, v, hij, hv, hvn, hmin⟩ := local_search_some hs
    have hi : i = j := by omega
    subst hi
    have hlt : i < s.local_variables.length := by
      rcases Nat.lt_or_ge i s.local_variables.length with h | h
      · exact h
      · rw [List.getElem?_eq_none h] at hv; cases hv
    refine ⟨i, v, hv, hvn, hmin, ?_⟩
    simp only [wsh_local, harg, hsplit, hs, strcmp_self, if_true, shift_up_take _ _ hlt]

/-- C6 (evaluation at the failing input): `local X=` on a store without
`X` does not leave the store unchanged: it appends `X` with an empty
value. -/
theorem wsh_local_unset_absent_appends :
    wsh_local [some "local".toList, some "X=".toList] demo_shell =
      .ok { demo_shell with local_variables := [{ name := "X".toList, value := [] }] } := by
  decide

/-- C5 (counterexample): on the store `A=1`, `B=1`, `local A=x=y` gives `A`
the value `x`, not `x=y`, and `local C=x=y` appends `(C, x)`; on the empty
store `local =v`, whose name is empty and whose value is `v`, appends the
entry named `v` with an empty value. -/
theorem local_value_cut_at_equals :
    wsh_local [some "local".toList, some "A=x=y".toList] two_vars_shell =
      .ok { two_vars_shell with
        local_variables :=
          [{ name := "A".toList, value := "x".toList },
           { name := "B".toList, value := "1".toList }],
        return_var := 0 } ∧
    wsh_local [some "local".toList, some "C=x=y".toList] two_vars_shell =
      .ok { two_vars_shell with
        local_variables :=
          [{ name := "A".toList, value := "1".toList },
           { name := "B".toList, value := "1".toList },
           { name := "C".toList, value := "x".toList }] } ∧
    "x".toList ≠ "x=y".toList ∧
    wsh_local [some "local".toList, some "=v".toList] demo_shell =
      .ok { demo_shell with local_variables := [{ name := "v".toList, value := [] }] } := by
  refine ⟨by decide, by decide, by decide, by decide⟩

/-- C5 (amended): for every variable store and every `local NAME=VALUE`
with a non-empty `NAME` and a non-empty `VALUE` that holds no `=`,
`wsh_local` returns; when an entry named `NAME` exists the names in the
store keep their order and only the first entry named `NAME` changes, its
value becoming `VALUE`; when none exists the new store is the old one with
`(NAME, VALUE)` appended; `vars` prints the store in that order. -/
theorem wsh_local_assign (args : List (Option CStr)) (s : Shell) (NAME VALUE : CStr)
    (harg : arg_at args 1 = some (NAME ++ '=' :: VALUE))
    (hname : NAME ≠ []) (hname2 : '=' ∉ NAME)
    (hval : VALUE ≠ []) (hval2 : '=' ∉ VALUE) :
    ∃ s1, wsh_local args s = .ok s1 ∧
      ((∃ v ∈ s.local_variables, v.name = NAME) →
        ∃ i v, s.local_variables[i]? = some v ∧ v.name = NAME ∧
          (∀ m w, m < i → s.local_variables[m]? = some w → w.name ≠ NAME) ∧
          s1.local_variables = s.local_variables.set i { name := NAME, value := VALUE } ∧
          s1.local_variables.map (fun x => x.name) =
            s.local_variables.map (fun x => x.name) ∧
          (∀ m, m ≠ i → s1.local_variables[m]? = s.local_variables[m]?)) ∧
      ((∀ v ∈ s.local_variables, v.name ≠ NAME) →
        s1.local_variables = s.local_variables ++ [{ name := NAME, value := VALUE }]) ∧
      (wsh_vars s1).out = s1.out ++ s1.local_variables.map (fun x => x.name ++ '=' :: x.value) :=
  wsh_local_sets_split args s (NAME ++ '=' :: VALUE) NAME VALUE harg
    (split_assignment_plain NAME VALUE hname hname2 hval2) hval

/-- The assignment property at `local A=2` on the store `A=1`, `B=1`. -/
theorem wsh_local_assign_witness :
    ∃ s1, wsh_local [some "local".toList, some "A=2".toList] two_vars_shell = .ok s1 ∧
      ((∃ v ∈ two_vars_shell.local_variables, v.name = "A".toList) →
        ∃ i v, two_vars_shell.local_variables[i]? = some v ∧ v.name = "A".toList ∧
          (∀ m w, m < i → two_vars_shell.local_variables[m]? = some w → w.name ≠ "A".toList) ∧
          s1.local_variables =
            two_vars_shell.local_variables.set i { name := "A".toList, value := "2".toList } ∧
          s1.local_variables.map (fun x => x.name) =
            two_vars_shell.local_variables.map (fun x => x.name) ∧
          (∀ m, m ≠ i → s1.local_variables[m]? = two_vars_shell.local_variables[m]?)) ∧
      ((∀ v ∈ two_vars_shell.local_variables, v.name ≠ "A".toList) →
        s1.local_variables =
          two_vars_shell.local_variables ++ [{ name := "A".toList, value := "2".toList }]) ∧
      (wsh_vars s1).out =
        s1.out ++ s1.local_variables.map (fun x => x.name ++ '=' :: x.value) :=
  wsh_local_assign [some "local".toList, some "A=2".toList] two_vars_shell
    "A".toList "2".toList (by decide) (by decide) (by decide) (by decide) (by decide)

/-! ## The order of `strcmp` -/

theorem strcmp_gt_flip : ∀ {a b : CStr}, strcmp a b > 0 → strcmp b a ≤ 0 := by
  intro a
  induction a with
  | nil => intro b h; cases b <;> simp [strcmp] at h
  | cons c s ih =>
    intro b h
    cases b with
    | nil => simp [strcmp]
    | cons d t =>
      simp only [strcmp] at h ⊢
      by_cases h1 : c.toNat < d.toNat
      · simp [h1] at h
      · by_cases h2 : d.toNat < c.toNat
        · simp [h2]
        · simp only [h1, h2, if_false] at h ⊢
          exact ih h

theorem strcmp_le_trans : ∀ {a b c : CStr}, strcmp a b ≤ 0 → strcmp b c ≤ 0 → strcmp a c ≤ 0 := by
  intro a
  induction a with
  | nil => intro b c _ _; cases c <;> simp [strcmp]
  | cons x s ih =>
    intro b c hab hbc
    cases b with
    | nil => simp [strcmp] at hab
    | cons y t =>
      cases c with
      | nil => simp [strcmp] at hbc
      | cons z u =>
        simp only [strcmp] at hab hbc ⊢
        by_cases h1 : x.toNat < y.toNat
        · by_cases h2 : y.toNat < z.toNat
          · have : x.toNat < z.toNat := by omega
            simp [this]
          · by_cases h3 : z.toNat < y.toNat
            · simp [h2, h3] at hbc
            · have : x.toNat < z.toNat := by omega
              simp [this]
        · by_cases h1b : y.toNat < x.toNat
          · simp [h1, h1b] at hab
          · simp only [h1, h1b, if_false] at hab
            by_cases h2 : y.toNat < z.toNat
            · have : x.toNat < z.toNat := by omega
              simp [this]
            · by_cases h3 : z.toNat < y.toNat
              · simp [h2, h3] at hbc
              · simp only [h2, h3, if_false] at hbc
                have h4 : ¬ x.toNat < z.toNat := by omega
                have h5 : ¬ z.toNat < x.toNat := by omega
                simp only [h4, h5, if_false]
                exact ih hab hbc

theorem strcmp_le_refl (a : CStr) : strcmp a a ≤ 0 := by
  rw [strcmp_self]

/-! ## The sort of `wsh_ls` (C7) -/

theorem bubble_inner_short (k : Nat) : ∀ (l : List CStr) (j : Nat),
    l.length ≤ j + 1 → bubble_inner l j k = l := by
  induction k with
  | zero => intro l j _; rfl
  | succ k ih =>
    intro l j h
    have h1 : l.get? (j + 1) = none := by
      rw [List.get?_eq_getElem?, List.getElem?_eq_none (by omega)]
    have h2 : bubble_step l j = l := by
      unfold bubble_step
      rw [h1]
      split
      · rename_i heq; cases heq
      · rfl
    simp only [bubble_inner, h2]
    exact ih l (j + 1) (by omega)

theorem bubble_inner_eq_carry (k : Nat) : ∀ (front : List CStr) (a : CStr) (rest : List CStr),
    bubble_inner (front ++ a :: rest) front.length k = front ++ bubble_carry k a rest := by
  induction k with
  | zero => intro front a rest; rfl
  | succ k ih =>
    intro front a rest
    cases rest with
    | nil =>
      simp only [bubble_carry]
      exact bubble_inner_short _ _ _ (by simp)
    | cons b t =>
      have h1 : (front ++ a :: b :: t).get? front.length = some a := by
        rw [List.get?_eq_getElem?, List.getElem?_append_right (Nat.le_refl _)]
        simp
      have h2 : (front ++ a :: b :: t).get? (front.length + 1) = some b := by
        rw [List.get?_eq_getElem?, List.getElem?_append_right (by omega)]
        simp
      simp only [bubble_inner, bubble_step, h1, h2, bubble_carry]
      by_cases hc : strcmp a b > 0
      · simp only [hc, if_true]
        have h3 : ((front ++ a :: b :: t).set front.length b).set (front.length + 1) a =
            (front ++ [b]) ++ a :: t := by
          simp [List.set_append]
        rw [h3]
        have h4 := ih (front ++ [b]) a t
        simp only [List.length_append, List.length_singleton] at h4
        rw [h4]
        simp
      · simp only [hc, if_false]
        have h4 := ih (front ++ [a]) b t
        simp only [List.length_append, List.length_singleton, List.append_assoc,
          List.singleton_append] at h4
        rw [h4]

theorem bubble_carry_perm (k : Nat) : ∀ (a : CStr) (rest : List CStr),
    (bubble_carry k a rest).Perm (a :: rest) := by
  induction k with
  | zero => intro a rest; exact List.Perm.refl _
  | succ k ih =>
    intro a rest
    cases rest with
    | nil => exact List.Perm.refl _
    | cons b t =>
      simp only [bubble_carry]
      split
      · exact ((ih a t).cons b).trans (List.Perm.swap a b t)
      · exact (ih b t).cons a

theorem bubble_carry_length (k : Nat) (a : CStr) (rest : List CStr) :
    (bubble_carry k a rest).length = rest.length + 1 := by
  simpa using (bubble_carry_perm k a rest).length_eq

theorem bubble_carry_append (k : Nat) : ∀ (a : CStr) (x y : List CStr), x.length = k →
    bubble_carry k a (x ++ y) = bubble_carry k a x ++ y := by
  induction k with
  | zero =>
    intro a x y h
    have : x = [] := List.length_eq_zero.mp h
    subst this; rfl
  | succ k ih =>
    intro a x y h
    cases x with
    | nil => simp at h
    | cons b t =>
      simp only [List.length_cons, Nat.add_right_cancel_iff] at h
      show bubble_carry (k + 1) a (b :: (t ++ y)) = bubble_carry (k + 1) a (b :: t) ++ y
      simp only [bubble_carry]
      split
      · rw [ih a t y h]; rfl
      · rw [ih b t y h]; rfl

/-- A full pass carries a largest name to the end. -/
theorem bubble_carry_max : ∀ (x : List CStr) (a : CStr),
    ∃ front m, bubble_carry x.length a x = front ++ [m] ∧ strcmp a m ≤ 0 ∧
      ∀ e ∈ front, strcmp e m ≤ 0 := by
  intro x
  induction x with
  | nil => intro a; exact ⟨[], a, rfl, strcmp_le_refl a, by simp⟩
  | cons b t ih =>
    intro a
    simp only [List.length_cons, bubble_carry]
    by_cases hc : strcmp a b > 0
    · obtain ⟨front, m, h1, h2, h3⟩ := ih a
      refine ⟨b :: front, m, by simp [hc, h1], h2, ?_⟩
      intro e he
      rcases List.mem_cons.mp he with h | h
      · subst h; exact strcmp_le_trans (strcmp_gt_flip hc) h2
      · exact h3 e h
    · obtain ⟨front, m, h1, h2, h3⟩ := ih b
      have hab : strcmp a b ≤ 0 := by omega
      refine ⟨a :: front, m, by simp [hc, h1], strcmp_le_trans hab h2, ?_⟩
      intro e he
      rcases List.mem_cons.mp he with h | h
      · subst h; exact strcmp_le_trans hab h2
      · exact h3 e h


theorem bubble_outer_sorts (k : Nat) : ∀ (l : List CStr) (i : Nat) (p q : List CStr),
    l = p ++ q → q.length = i → p.length = k + 1 →
    q.Pairwise (fun a b => strcmp a b ≤ 0) →
    (∀ e ∈ p, ∀ f ∈ q, strcmp e f ≤ 0) →
    (bubble_outer l i k).Pairwise (fun a b => strcmp a b ≤ 0) ∧ (bubble_outer l i k).Perm l := by
  induction k with
  | zero =>
    intro l i p q hl _ hp hq hpq
    simp only [bubble_outer]
    refine ⟨?_, List.Perm.refl _⟩
    match p, hp with
    | [e], _ =>
      subst hl
      simp only [List.singleton_append, List.pairwise_cons]
      exact ⟨fun f hf => hpq e (by simp) f hf, hq⟩
  | succ k ih =>
    intro l i p q hl hi hp hq hpq
    match p, hp with
    | a :: x, hp =>
      have hx : x.length = k + 1 := by simpa using hp
      have hcount : l.length - i - 1 = x.length := by
        subst hl; simp only [List.length_append, List.length_cons]; omega
      obtain ⟨front, m, hfm, _, hmax⟩ := bubble_carry_max x a
      have hpass : bubble_inner l 0 (l.length - i - 1) = front ++ (m :: q) := by
        rw [hcount, hl]
        have h1 := bubble_inner_eq_carry x.length [] a (x ++ q)
        simp only [List.nil_append, List.length_nil] at h1
        show bubble_inner (a :: (x ++ q)) 0 x.length = _
        rw [h1, bubble_carry_append _ _ _ _ rfl, hfm]
        simp
      have hperm : (front ++ [m]).Perm (a :: x) := by
        rw [← hfm]; exact bubble_carry_perm _ _ _
      have hfront : front.length = k + 1 := by
        have := hperm.length_eq
        simp only [List.length_append, List.length_cons, List.length_nil] at this
        omega
      have hm : m ∈ a :: x := hperm.subset (by simp)
      have hsub : ∀ e ∈ front, e ∈ a :: x := fun e he => hperm.subset (by simp [he])
      have hq2 : (m :: q).Pairwise (fun a b => strcmp a b ≤ 0) :=
        List.pairwise_cons.mpr ⟨fun f hf => hpq m hm f hf, hq⟩
      have hpq2 : ∀ e ∈ front, ∀ f ∈ m :: q, strcmp e f ≤ 0 := by
        intro e he f hf
        rcases List.mem_cons.mp hf with h | h
        · subst h; exact hmax e he
        · exact hpq e (hsub e he) f h
      have hrec := ih (front ++ (m :: q)) (i + 1) front (m :: q) rfl (by simp [hi]) hfront hq2 hpq2
      simp only [bubble_outer, hpass]
      refine ⟨hrec.1, hrec.2.trans ?_⟩
      rw [hl]
      have : front ++ m :: q = (front ++ [m]) ++ q := by simp
      rw [this]
      exact hperm.append_right q

theorem bubble_sort_sorts (l : List CStr) :
    (bubble_sort l).Pairwise (fun a b => strcmp a b ≤ 0) ∧ (bubble_sort l).Perm l := by
  unfold bubble_sort
  cases l with
  | nil => simp [bubble_outer]
  | cons a t =>
    exact bubble_outer_sorts t.length (a :: t) 0 (a :: t) [] (by simp) rfl (by simp)
      List.Pairwise.nil (by simp)

/-- C7: for every sequence of names that `readdir` returns, the lines
`wsh_ls` prints are the names that do not begin with a dot, each once per
occurrence (a permutation of the filtered input), in ascending byte-wise
order. -/
theorem wsh_ls_prints_sorted (os : OS) (s : Shell) (entries : List CStr)
    (hdir : os.readdir = some entries) :
    ∃ lines, (wsh_ls os s).out = s.out ++ lines ∧
      lines.Perm (entries.filter (fun name => decide (name.head? ≠ some '.'))) ∧
      lines.Pairwise (fun a b => strcmp a b ≤ 0) := by
  refine ⟨bubble_sort (ls_collect entries), ?_, ?_, (bubble_sort_sorts _).1⟩
  · simp only [wsh_ls, hdir]
  · have hfilter : ls_collect entries =
        entries.filter (fun name => decide (name.head? ≠ some '.')) := by
      unfold ls_collect
      apply List.filter_congr
      intro name _
      cases name with
      | nil => simp [char_at]
      | cons c t =>
        by_cases hc : c = '.'
        · simp [char_at, hc]
        · simp [char_at, hc]
    rw [← hfilter]
    exact (bubble_sort_sorts _).2

/-- The listing property at the entries `banana`, `Apple`, `apple`,
`.hidden`: the lines printed are `Apple`, `apple`, `banana`. -/
theorem wsh_ls_prints_sorted_witness :
    (wsh_ls demo_os demo_shell).out = ["Apple".toList, "apple".toList, "banana".toList] ∧
    ∃ lines, (wsh_ls demo_os demo_shell).out = demo_shell.out ++ lines ∧
      lines.Perm (["banana".toList, "Apple".toList, "apple".toList, ".hidden".toList].filter
        (fun name => decide (name.head? ≠ some '.'))) ∧
      lines.Pairwise (fun a b => strcmp a b ≤ 0) :=
  ⟨by decide, wsh_ls_prints_sorted demo_os demo_shell
    ["banana".toList, "Apple".toList, "apple".toList, ".hidden".toList] rfl⟩

/-! ## The argument vector after the scan (C8) -/

/-- C8 (counterexample): in `echo >out hi` the only redirection token opens,
yet the vector handed on is `[echo]`, and so is the one of each child
launched, not `[echo, hi]`, the tokens that are not redirection tokens. -/
theorem argv_loses_tokens_after_redirection :
    redirs_open demo_os ["echo".toList, ">out".toList, "hi".toList] = true ∧
    ["echo".toList, ">out".toList, "hi".toList].filter (fun t => (parse_redir t).isNone) =
      ["echo".toList, "hi".toList] ∧
    dispatch_argv demo_os ["echo".toList, ">out".toList, "hi".toList] demo_shell =
      some ["echo".toList] ∧
    dispatch_argv demo_os ["echo".toList, ">out".toList, "hi".toList] demo_shell ≠
      some (["echo".toList, ">out".toList, "hi".toList].filter
        (fun t => (parse_redir t).isNone)) ∧
    (execute_commands demo_os 1 ["echo".toList, ">out".toList, "hi".toList]
        (some "echo >out hi".toList) false demo_shell).bind (fun s1 => .ok s1.launched) =
      .ok [("/bin/echo".toList, ["echo".toList])] := by
  decide

theorem redirect_loop_slots (os : OS) (args : List CStr) :
    ∀ (s : Shell), redirs_open os args = true →
      ∃ s1, redirect_loop os args s =
        .ok (args.map (fun t => if (parse_redir t).isSome then none else some t), s1) := by
  induction args with
  | nil => intro s _; exact ⟨s, rfl⟩
  | cons t rest ih =>
    intro s h
    simp only [redirs_open, List.all_cons, Bool.and_eq_true] at h
    have hrest : redirs_open os rest = true := h.2
    cases hp : parse_redir t with
    | none =>
      obtain ⟨s1, h1⟩ := ih s hrest
      exact ⟨s1, by simp [redirect_loop, hp, h1, Res.bind]⟩
    | some r =>
      have h0 := h.1
      cases hf : r.filename with
      | none => simp [hp, hf] at h0
      | some f =>
        simp only [hp, hf] at h0
        obtain ⟨s1, h1⟩ := ih
          { s with fds := open_onto s.fds { path := f, mode := r.mode } r.targets } hrest
        exact ⟨s1, by simp [redirect_loop, hp, apply_redir, hf, h0, h1, Res.bind]⟩

theorem argv_of_map (args : List CStr) :
    argv_of (args.map (fun t => if (parse_redir t).isSome then none else some t)) =
      args.takeWhile (fun t => (parse_redir t).isNone) := by
  induction args with
  | nil => rfl
  | cons t rest ih =>
    cases hp : parse_redir t with
    | none => simp [argv_of, List.takeWhile, hp, ih]
    | some r => simp [argv_of, List.takeWhile, hp]

/-- C8 (amended): when every redirection token opens, the scan returns
with each redirection token replaced by `NULL` in place and every other
token left as it is, so the argument vector handed to the built-ins and to
`execv` is the tokens before the first redirection token, in their
order. -/
theorem argv_is_tokens_before_first_redirection (os : OS) (args : List CStr) (s : Shell)
    (hopen : redirs_open os args = true) :
    (∃ s1, scan_args os args s =
      .ok (args.map (fun t => if (parse_redir t).isSome then none else some t), s1)) ∧
    dispatch_argv os args s = some (args.takeWhile (fun t => (parse_redir t).isNone)) := by
  obtain ⟨s1, h1⟩ := redirect_loop_slots os args { s with fds := (save_std s.fds).2 } hopen
  refine ⟨⟨s1, h1⟩, ?_⟩
  have h2 : scan_args os args s =
      .ok (args.map (fun t => if (parse_redir t).isSome then none else some t), s1) := h1
  simp only [dispatch_argv, h2, argv_of_map]

/-- The argument-vector property at `echo >out hi`. -/
theorem argv_is_tokens_before_first_redirection_witness :
    (∃ s1, scan_args demo_os ["echo".toList, ">out".toList, "hi".toList] demo_shell =
      .ok (["echo".toList, ">out".toList, "hi".toList].map
        (fun t => if (parse_redir t).isSome then none else some t), s1)) ∧
    dispatch_argv demo_os ["echo".toList, ">out".toList, "hi".toList] demo_shell =
      some (["echo".toList, ">out".toList, "hi".toList].takeWhile
        (fun t => (parse_redir t).isNone)) :=
  argv_is_tokens_before_first_redirection demo_os
    ["echo".toList, ">out".toList, "hi".toList] demo_shell (by decide)

/-! ## The standard descriptors (C9) -/

/-- C9 (evaluation at the failing input): with descriptors 0, 1, 2 on the
terminal and 3, 4, 5 free, `echo hi 3>out.txt` returns with descriptor 0 on
`out.txt`: the redirection onto 3 has overwritten `saved_stdin`, which the
restore then copies onto descriptor 0. -/
theorem digit_redirection_clobbers_saved_stdin :
    fd_lookup demo_shell.fds 0 = some tty ∧
    (save_std demo_shell.fds).1 = (some 3, some 4, some 5) ∧
    (execute_commands demo_os 1 ["echo".toList, "hi".toList, "3>out.txt".toList]
        (some "echo hi 3>out.txt".toList) false demo_shell).bind
      (fun s1 => .ok (fd_lookup s1.fds 0, fd_lookup s1.fds 1, fd_lookup s1.fds 2)) =
      .ok (some { path := "out.txt".toList, mode := "w".toList }, some tty, some tty) := by
  decide

/-! ## The scan of `PATH` (C10) -/

/-- C10 (evaluation at the failing input): with `PATH=/bin:/usr/bin` and
`echo` executable under both entries, `echo hi` forks two children, one
for each entry. -/
theorem path_scan_launches_every_match :
    (execute_commands demo_os 1 ["echo".toList, "hi".toList] (some "echo hi".toList)
        false two_path_shell).bind (fun s1 => .ok s1.launched) =
      .ok [("/bin/echo".toList, ["echo".toList, "hi".toList]),
           ("/usr/bin/echo".toList, ["echo".toList, "hi".toList])] := by
  decide

/-! ## Replay from history (C4) -/

theorem builtin_names_chars :
    builtin_names = [['e', 'x', 'i', 't'], ['c', 'd'], ['e', 'x', 'p', 'o', 'r', 't'],
      ['l', 'o', 'c', 'a', 'l'], ['v', 'a', 'r', 's'], ['h', 'i', 's', 't', 'o', 'r', 'y'],
      ['l', 's']] := by
  decide

theorem dollar_not_builtin (v : CStr) : '$' :: v ∉ builtin_names := by
  rw [builtin_names_chars]
  simp

theorem strtok_residue_head (c : Char) (u delim : CStr) :
    ∃ v, strtok_residue (c :: u) delim = c :: v := by
  by_cases h : c ∈ delim
  · exact ⟨_, by simp [strtok_residue, List.takeWhile, List.dropWhile, h]; rfl⟩
  · exact ⟨_, by simp [strtok_residue, List.takeWhile, List.dropWhile, h]; rfl⟩

theorem left_in_place_dollar (t : CStr) (h : char_at t 0 = '$') :
    left_in_place t ∉ builtin_names := by
  cases t with
  | nil => simp [char_at] at h
  | cons c u =>
    have hc : c = '$' := by simpa [char_at] using h
    subst hc
    have hd : isdigit (char_at ('$' :: u) 0) = false := by
      have : char_at ('$' :: u) 0 = '$' := rfl
      rw [this]; decide
    unfold left_in_place parse_redir
    simp only [hd, Bool.false_and, if_false]
    split
    · rename_i heq
      exact dollar_not_builtin u
    · rename_i r heq
      split at heq
      · cases heq
        obtain ⟨v, hv⟩ := strtok_residue_head '$' u "<".toList
        simp only [hv]; exact dollar_not_builtin v
      · split at heq
        · cases heq
          obtain ⟨v, hv⟩ := strtok_residue_head '$' u "&>>".toList
          simp only [hv]; exact dollar_not_builtin v
        · split at heq
          · cases heq
            obtain ⟨v, hv⟩ := strtok_residue_head '$' u ">>".toList
            simp only [hv]; exact dollar_not_builtin v
          · split at heq
            · cases heq
              obtain ⟨v, hv⟩ := strtok_residue_head '$' u "&>".toList
              simp only [hv]; exact dollar_not_builtin v
            · split at heq
              · cases heq
                obtain ⟨v, hv⟩ := strtok_residue_head '$' u ">".toList
                simp only [hv]; exact dollar_not_builtin v
              · cases heq


theorem redirect_loop_head {os : OS} {t : CStr} {rest : List CStr} {s s1 : Shell}
    {slots : List (Option CStr)} (h : redirect_loop os (t :: rest) s = .ok (slots, s1)) :
    arg_at slots 0 = none ∨ arg_at slots 0 = some (left_in_place t) := by
  simp only [redirect_loop] at h
  cases hp : parse_redir t with
  | none =>
    rw [hp] at h
    obtain ⟨p, _, h2⟩ := res_bind_ok h
    cases h2
    right
    simp [arg_at, left_in_place, hp]
  | some r =>
    rw [hp] at h
    obtain ⟨⟨slot, sq⟩, hq, h2⟩ := res_bind_ok h
    obtain ⟨p, _, h3⟩ := res_bind_ok h2
    cases h3
    unfold apply_redir at hq
    split at hq
    · cases hq
    · split at hq
      · cases hq; left; simp [arg_at]
      · split at hq
        · cases hq; right; simp [arg_at, left_in_place, hp]
        · cases hq

theorem wsh_exit_history {args : List (Option CStr)} {s s1 : Shell}
    (h : wsh_exit args s = .ok s1) : s1.history_list = s.history_list := by
  unfold wsh_exit at h
  split at h
  · cases h; rfl
  · cases h

theorem wsh_cd_history (os : OS) (args : List (Option CStr)) (s : Shell) :
    (wsh_cd os args s).history_list = s.history_list := by
  unfold wsh_cd
  split
  · rfl
  · split <;> rfl

theorem wsh_export_history {args : List (Option CStr)} {s s1 : Shell}
    (h : wsh_export args s = .ok s1) : s1.history_list = s.history_list := by
  unfold wsh_export at h
  split at h
  · cases h
  · split at h
    · cases h
    · cases h; rfl

theorem wsh_local_history {args : List (Option CStr)} {s s1 : Shell}
    (h : wsh_local args s = .ok s1) : s1.history_list = s.history_list := by
  unfold wsh_local at h
  split at h
  · cases h
  · split at h
    · cases h
    · simp only at h
      split at h
      · split at h
        · cases h; rfl
        · split at h
          · cases h; rfl
          · cases h
      · cases h; rfl

theorem wsh_ls_history (os : OS) (s : Shell) :
    (wsh_ls os s).history_list = s.history_list := by
  unfold wsh_ls
  split <;> rfl

theorem restore_history (s : Shell) (t : FdTable) (b : Bool) :
    (if b = true then ({ s with fds := t } : Shell)
      else { ({ s with fds := t } : Shell) with return_var := -1 }).history_list =
      s.history_list := by
  cases b <;> rfl


theorem apply_redir_defined (os : OS) (r : Redir) (s : Shell) :
    (∃ q, apply_redir os r s = .ok q) ∨ apply_redir os r s = .undefined := by
  unfold apply_redir
  split
  · right; rfl
  · split
    · left; exact ⟨_, rfl⟩
    · split
      · left; exact ⟨_, rfl⟩
      · right; rfl

theorem redirect_loop_defined (os : OS) (args : List CStr) :
    ∀ s, (∃ p, redirect_loop os args s = .ok p) ∨ redirect_loop os args s = .undefined := by
  induction args with
  | nil => intro s; left; exact ⟨_, rfl⟩
  | cons t rest ih =>
    intro s
    simp only [redirect_loop]
    split
    · rcases ih s with ⟨p, hp⟩ | hu
      · left; exact ⟨_, by rw [hp]; rfl⟩
      · right; rw [hu]; rfl
    · rename_i r _
      rcases apply_redir_defined os r s with ⟨q, hq⟩ | hu
      · rw [hq]
        simp only [Res.bind]
        rcases ih q.2 with ⟨p, hp⟩ | hu2
        · left; exact ⟨_, by rw [hp]⟩
        · right; rw [hu2]
      · right; rw [hu]; rfl

theorem redirect_loop_not_exited (os : OS) (args : List CStr) (s : Shell) {c : Int}
    (h : redirect_loop os args s = .exited c) : False := by
  rcases redirect_loop_defined os args s with ⟨p, hp⟩ | hu
  · rw [hp] at h; cases h
  · rw [hu] at h; cases h

theorem redirect_loop_not_fuel (os : OS) (args : List CStr) {s : Shell}
    (h : redirect_loop os args s = .out_of_fuel) : False := by
  rcases redirect_loop_defined os args s with ⟨p, hp⟩ | hu
  · rw [hp] at h; cases h
  · rw [hu] at h; cases h

/-- A command whose name the built-in chain does not match, run from
history, returns with the ring as it was, unless it is undefined. -/
theorem replay_external_frame (os : OS) (fuel : Nat) (t0 : CStr) (rest : List CStr) (s : Shell)
    (hext : left_in_place t0 ∉ builtin_names) :
    (∃ s1, execute_commands os (fuel + 1) (t0 :: rest) none true s = .ok s1 ∧
      s1.history_list = s.history_list) ∨
    execute_commands os (fuel + 1) (t0 :: rest) none true s = .undefined := by
  simp only [execute_commands, execute_body]
  cases hscan : scan_args os (t0 :: rest) s with
  | ok scanned =>
    obtain ⟨slots, s0⟩ := scanned
    have hf := scan_args_frame hscan
    have hhead := redirect_loop_head hscan
    rcases hhead with h0 | h0
    · right
      simp [Res.bind, dispatch, h0]
    · rw [Res.bind]
      simp only
      rw [dispatch_external h0 hext]
      by_cases ha : os.access_x (left_in_place t0) = true
      · left
        simp only [ha, if_true, Res.bind, h0, record_history, Bool.true_eq_false, false_and,
          if_false]
        exact ⟨_, rfl, by simp [launch_direct_history, hf.1]⟩
      · simp only [ha, if_false]
        cases hp : getenv s0.environ "PATH".toList with
        | none => right; rfl
        | some path =>
          left
          simp only [Res.bind, h0, record_history, Bool.true_eq_false, false_and, if_false]
          refine ⟨_, rfl, ?_⟩
          rw [restore_history]
          rw [path_scan_history]
          exact hf.1
  | undefined => right; rfl
  | exited c =>
    exfalso
    unfold scan_args at hscan
    exact redirect_loop_not_exited _ _ _ hscan
  | out_of_fuel =>
    exfalso
    unfold scan_args at hscan
    exact redirect_loop_not_fuel _ _ hscan


theorem history_resize_mem {os : OS} {h : List (Option CStr)} {n : Nat} {line : CStr}
    (hm : some line ∈ history_resize os h n) : some line ∈ h := by
  rw [history_resize_eq, List.mem_append] at hm
  rcases hm with h1 | h1
  · exact List.mem_of_mem_take h1
  · rw [List.mem_replicate] at h1
    cases h1.2

theorem getD_mem_ring {ring : List (Option CStr)} {i : Nat} {line : CStr}
    (h : ring.getD i none = some line) : some line ∈ ring := by
  rw [List.getD_eq_getElem?_getD] at h
  cases hi : ring[i]? with
  | none => rw [hi] at h; cases h
  | some x =>
    rw [hi] at h
    simp only [Option.getD_some] at h
    rw [← h]
    exact List.getElem?_mem hi

theorem replays_external_tokens {line : CStr} (h : replays_external line = true) :
    (strtok_all line " ".toList).length < MAXARGS ∧
      ∃ t0 rest, strtok_all line " ".toList = t0 :: rest ∧ left_in_place t0 ∉ builtin_names := by
  unfold replays_external at h
  simp only [Bool.and_eq_true, decide_eq_true_eq] at h
  refine ⟨h.1, ?_⟩
  cases ht : strtok_all line " ".toList with
  | nil => rw [ht] at h; simp at h
  | cons t0 rest =>
    rw [ht] at h
    exact ⟨t0, rest, rfl, by simpa using h.2⟩

/-- The replay branch of `wsh_history` on a ring whose lines replay as
external commands: the nested call returns with the ring as it was, or is
undefined, or has no fuel. -/
theorem replay_line_frame (os : OS) (fuel : Nat) (line : CStr) (s : Shell)
    (hline : replays_external line = true) {s1 : Shell}
    (h : execute_commands os fuel (strtok_all line " ".toList) none true s = .ok s1) :
    s1.history_list = s.history_list := by
  obtain ⟨_, t0, rest, ht, hext⟩ := replays_external_tokens hline
  cases fuel with
  | zero => simp [execute_commands] at h
  | succ fuel =>
    rw [ht] at h
    rcases replay_external_frame os fuel t0 rest s hext with ⟨s2, h2, h3⟩ | h2
    · rw [h2] at h; cases h; exact h3
    · rw [h2] at h; cases h

theorem wsh_history_ring {os : OS} {fuel : Nat} {args : List (Option CStr)} {s s1 : Shell}
    (hring : ring_replays s.history_list)
    (h : wsh_history os (fun temp_args s2 => execute_commands os fuel temp_args none true s2)
      args s = .ok s1) :
    ∀ line, some line ∈ s1.history_list → some line ∈ s.history_list := by
  unfold wsh_history at h
  obtain ⟨s2, hchain, h2⟩ := res_bind_ok h
  cases h2
  simp only
  unfold wsh_history_chain at hchain
  split at hchain
  · cases hchain; intro line hl; exact hl
  · split at hchain
    · simp only at hchain
      split at hchain
      · cases hchain
        intro line hl
        exact history_resize_mem hl
      · cases hchain; intro line hl; exact hl
    · split at hchain
      · simp only at hchain
        split at hchain
        · split at hchain
          · rename_i command hcmd
            split at hchain
            · cases hchain
            · have hmem := getD_mem_ring hcmd
              have hframe := replay_line_frame os fuel command s (hring command hmem) hchain
              intro line hl
              rw [hframe] at hl
              exact hl
          · cases hchain; intro line hl; exact hl
        · cases hchain; intro line hl; exact hl
      · cases hchain; intro line hl; exact hl

theorem wsh_vars_history (s : Shell) : (wsh_vars s).history_list = s.history_list := rfl

theorem dispatch_ring {os : OS} {fuel : Nat} {args : List (Option CStr)} {s s1 : Shell}
    {ran : Bool} (hring : ring_replays s.history_list)
    (h : dispatch os (fun temp_args s2 => execute_commands os fuel temp_args none true s2)
      args s = .ok (s1, ran)) :
    ∀ line, some line ∈ s1.history_list → some line ∈ s.history_list := by
  unfold dispatch at h
  split at h
  · cases h
  · split at h
    · obtain ⟨s2, h1, h2⟩ := res_bind_ok h
      cases h2
      intro line hl; rw [wsh_exit_history h1] at hl; exact hl
    · split at h
      · cases h
        intro line hl; rw [wsh_cd_history] at hl; exact hl
      · split at h
        · obtain ⟨s2, h1, h2⟩ := res_bind_ok h
          cases h2
          intro line hl; rw [wsh_export_history h1] at hl; exact hl
        · split at h
          · obtain ⟨s2, h1, h2⟩ := res_bind_ok h
            cases h2
            intro line hl; rw [wsh_local_history h1] at hl; exact hl
          · split at h
            · cases h
              intro line hl; exact hl
            · split at h
              · obtain ⟨s2, h1, h2⟩ := res_bind_ok h
                cases h2
                exact wsh_history_ring hring h1
              · split at h
                · cases h
                  intro line hl; rw [wsh_ls_history] at hl; exact hl
                · split at h
                  · cases h
                    intro line hl; rw [launch_direct_history] at hl; exact hl
                  · split at h
                    · cases h
                    · injection h with h6
                      have h5 := congrArg Prod.fst h6
                      simp only at h5
                      intro line hl
                      rw [← h5, path_scan_history] at hl; exact hl

theorem record_history_ring {args0 : Option CStr} {line : CStr} {from_history ran : Bool}
    {s s1 : Shell} (h : record_history args0 (some line) from_history ran s = .ok s1) :
    ∀ l, some l ∈ s1.history_list →
      some l ∈ s.history_list ∨ (l = line ∧ ∃ a0, args0 = some a0 ∧ a0 ∉ builtin_names) := by
  unfold record_history at h
  split at h
  · cases h; intro l hl; left; exact hl
  · rename_i a0
    split at h
    · split at h
      · rename_i hnb
        split at h
        · cases h
        · cases h
        · rename_i others stored hring hline
          cases hline
          split at h
          · cases h
            intro l hl
            simp only at hl
            rw [shift_history_insert, List.mem_map] at hl
            obtain ⟨i, _, hi⟩ := hl
            split at hi
            · right
              exact ⟨by cases hi; rfl, a0, rfl, hnb⟩
            · left
              rw [hring]
              exact getD_mem_ring hi
          · cases h; intro l hl; left; exact hl
      · cases h; intro l hl; left; exact hl
    · cases h; intro l hl; left; exact hl


theorem substitute_var_plain (s : Shell) (t : CStr) (h : char_at t 0 ≠ '$') :
    substitute_var s t = t := by
  simp [substitute_var, h]

/-- A line that `shell_step` records replays as an external command. -/
theorem recorded_line_replays {os : OS} {s s0 : Shell} {line t0 a0 : CStr}
    {rest : List CStr} {slots : List (Option CStr)}
    (hlen : (strtok_all line " ".toList).length < MAXARGS)
    (htok : strtok_all line " ".toList = t0 :: rest)
    (hscan : scan_args os ((t0 :: rest).map (substitute_var s)) s = .ok (slots, s0))
    (h0 : arg_at slots 0 = some a0) (hext : a0 ∉ builtin_names) :
    replays_external line = true := by
  have hleft : left_in_place t0 ∉ builtin_names := by
    by_cases hd : char_at t0 0 = '$'
    · exact left_in_place_dollar t0 hd
    · simp only [List.map_cons, substitute_var_plain s t0 hd] at hscan
      rcases redirect_loop_head hscan with h1 | h1
      · rw [h1] at h0; cases h0
      · rw [h1] at h0
        cases h0
        exact hext
  rw [htok] at hlen
  unfold replays_external
  simp only [htok, Bool.and_eq_true, decide_eq_true_eq]
  exact ⟨hlen, hleft⟩

theorem execute_commands_ring {os : OS} {fuel : Nat} {s s1 : Shell} {line t0 : CStr}
    {rest : List CStr} (hring : ring_replays s.history_list)
    (hlen : (strtok_all line " ".toList).length < MAXARGS)
    (htok : strtok_all line " ".toList = t0 :: rest)
    (h : execute_commands os fuel ((t0 :: rest).map (substitute_var s)) (some line) false s =
      .ok s1) :
    ring_replays s1.history_list := by
  cases fuel with
  | zero => simp [execute_commands] at h
  | succ fuel =>
    simp only [execute_commands, execute_body] at h
    obtain ⟨⟨slots, s0⟩, hscan, h2⟩ := res_bind_ok h
    obtain ⟨⟨s2, ran⟩, hd, h3⟩ := res_bind_ok h2
    obtain ⟨s3, hr, h4⟩ := res_bind_ok h3
    have hf := scan_args_frame hscan
    have hring0 : ring_replays s0.history_list := by rw [hf.1]; exact hring
    have hsub := dispatch_ring hring0 hd
    have hrec := record_history_ring hr
    have hs1 : s1.history_list = s3.history_list := by
      simp only at h4
      cases h4
      exact restore_history _ _ _
    intro l hl
    rw [hs1] at hl
    rcases hrec l hl with h5 | ⟨h5, a0, h6, h7⟩
    · exact hring0 l (hsub l h5)
    · rw [h5]
      exact recorded_line_replays hlen htok hscan h6 h7

theorem shell_step_ring {os : OS} {fuel : Nat} {line : CStr} {s s1 : Shell}
    (hring : ring_replays s.history_list) (h : shell_step os fuel line s = .ok s1) :
    ring_replays s1.history_list := by
  unfold shell_step at h
  split at h
  · cases h; exact hring
  · simp only at h
    split at h
    · cases h
    · rename_i hlen
      split at h
      · cases h; exact hring
      · cases htok : strtok_all line " ".toList with
        | nil => rename_i hne; exact absurd htok hne
        | cons t0 rest =>
          rw [htok] at h
          exact execute_commands_ring hring (by omega) htok h

theorem reachable_ring_replays {s : Shell} (h : Reachable s) : ring_replays s.history_list := by
  induction h with
  | start s hempty =>
    intro line hl
    have := hempty _ hl
    cases this
  | step os fuel line s s1 _ hstep ih => exact shell_step_ring ih hstep


/-- C4: in a state reachable from an empty ring, `history N` with `N`
naming a populated slot within the capacity runs the blank-split tokens of
the stored line through `execute_commands` with the history flag set, and
returns with the history ring exactly as it was, provided the replayed
command itself is not undefined; the state returned is the one of the
replayed command, with the status register set to 0 and the descriptors
restored. -/
theorem history_replay_keeps_ring (os : OS) (fuel : Nat) (N line original_line : CStr)
    (n : Nat) (s : Shell)
    (hreach : Reachable s)
    (hdigit : isdigit (char_at N 0) = true)
    (hplain : parse_redir N = none)
    (hn : atoi N = (n : Int)) (hpos : 1 ≤ n)
    (hslot : s.history_list[n - 1]? = some (some line))
    (hdef : execute_commands os (fuel + 1) (strtok_all line " ".toList) none true
      { s with fds := (save_std s.fds).2 } ≠ .undefined) :
    ∃ s1 s2,
      execute_commands os (fuel + 1) (strtok_all line " ".toList) none true
        { s with fds := (save_std s.fds).2 } = .ok s1 ∧
      execute_commands os (fuel + 2) ["history".toList, N] (some original_line) false s =
        .ok s2 ∧
      s2 = { s1 with
        return_var := 0,
        fds := restore_fds (save_std s.fds).1.1 (save_std s.fds).1.2.1
          (save_std s.fds).1.2.2 s1.fds } ∧
      s2.history_list = s.history_list := by
  have hring := reachable_ring_replays hreach
  have hmem : some line ∈ s.history_list := List.getElem?_mem hslot
  have hline := hring line hmem
  obtain ⟨hlen, t0, rest, htok, hext⟩ := replays_external_tokens hline
  have hframe := replay_external_frame os fuel t0 rest { s with fds := (save_std s.fds).2 } hext
  rw [← htok] at hframe
  rcases hframe with ⟨s1, hs1, hs1ring⟩ | hu
  · refine ⟨s1, _, hs1, ?_, rfl, hs1ring⟩
    have hlt : n - 1 < s.history_list.length := by
      rcases Nat.lt_or_ge (n - 1) s.history_list.length with h | h
      · exact h
      · rw [List.getElem?_eq_none h] at hslot; cases hslot
    have hscan : scan_args os ["history".toList, N] s =
        .ok ([some "history".toList, some N], { s with fds := (save_std s.fds).2 }) := by
      have h1 : parse_redir "history".toList = none := by decide
      simp only [scan_args, redirect_loop, h1, hplain, Res.bind]
    have hnotset : ¬ (strcmp N "set".toList = 0 ∧ arg_at [some "history".toList, some N] 2 ≠ none ∧
        isdigit (char_at ((arg_at [some "history".toList, some N] 2).getD []) 0) = true) := by
      intro h
      have := strcmp_eq_zero h.1
      rw [this] at hdigit
      exact absurd hdigit (by decide)
    have hidx : atoi N - 1 ≥ 0 ∧ atoi N - 1 < (s.history_list.length : Int) := by
      rw [hn]; omega
    have hget : s.history_list.getD (atoi N - 1).toNat none = some line := by
      have : (atoi N - 1).toNat = n - 1 := by rw [hn]; omega
      rw [this, List.getD_eq_getElem?_getD, hslot]
      rfl
    have hfit : ¬ ((strtok_all line " ".toList).length ≥ MAXARGS) := by omega
    have hchain : wsh_history os
        (fun temp_args s2 => execute_commands os (fuel + 1) temp_args none true s2)
        [some "history".toList, some N] { s with fds := (save_std s.fds).2 } =
        .ok { s1 with return_var := 0 } := by
      have harg1 : arg_at [some "history".toList, some N] 1 = some N := rfl
      simp only [wsh_history, wsh_history_chain, harg1, hnotset, if_false, hdigit, if_true,
        hidx, and_self, hget, hfit, hs1, Res.bind]
    have hdisp : dispatch os
        (fun temp_args s2 => execute_commands os (fuel + 1) temp_args none true s2)
        [some "history".toList, some N] { s with fds := (save_std s.fds).2 } =
        .ok ({ s1 with return_var := 0 }, true) := by
      have harg0 : arg_at [some "history".toList, some N] 0 = some "history".toList := rfl
      have e1 : ¬ strcmp "history".toList "exit".toList = 0 := by decide
      have e2 : ¬ strcmp "history".toList "cd".toList = 0 := by decide
      have e3 : ¬ strcmp "history".toList "export".toList = 0 := by decide
      have e4 : ¬ strcmp "history".toList "local".toList = 0 := by decide
      have e5 : ¬ strcmp "history".toList "vars".toList = 0 := by decide
      have e6 : strcmp "history".toList "history".toList = 0 := by decide
      simp only [dispatch, harg0, e1, e2, e3, e4, e5, e6, if_false, if_true, hchain, Res.bind]
    have hrec : record_history (arg_at [some "history".toList, some N] 0) (some original_line)
        false true { s1 with return_var := 0 } = .ok { s1 with return_var := 0 } := by
      have harg0 : arg_at [some "history".toList, some N] 0 = some "history".toList := rfl
      have hb : ¬ ("history".toList ∉ builtin_names) := by decide
      simp only [record_history, harg0, hb, if_false, and_self, if_true]
    have hexec : execute_commands os (fuel + 2) ["history".toList, N] (some original_line)
        false s =
        execute_body os
          (fun temp_args s2 => execute_commands os (fuel + 1) temp_args none true s2)
          ["history".toList, N] (some original_line) false s := rfl
    rw [hexec]
    simp only [execute_body, hscan, Res.bind, hdisp, hrec, if_true]
  · exact absurd hu hdef

/-- The replay property at `history 3` after the lines `echo hi`, `echo b`,
`echo a`: slot 2 holds `echo hi`. -/
theorem history_replay_keeps_ring_witness :
    after_third_line.history_list[2]? = some (some "echo hi".toList) ∧
    ∃ s1 s2,
      execute_commands demo_os 1 (strtok_all "echo hi".toList " ".toList) none true
        { after_third_line with fds := (save_std after_third_line.fds).2 } = .ok s1 ∧
      execute_commands demo_os 2 ["history".toList, "3".toList] (some "history 3".toList)
        false after_third_line = .ok s2 ∧
      s2 = { s1 with
        return_var := 0,
        fds := restore_fds (save_std after_third_line.fds).1.1
          (save_std after_third_line.fds).1.2.1 (save_std after_third_line.fds).1.2.2 s1.fds } ∧
      s2.history_list = after_third_line.history_list :=
  ⟨by decide,
    history_replay_keeps_ring demo_os 0 "3".toList "echo hi".toList "history 3".toList 3
      after_third_line
      (Reachable.step demo_os 1 "echo a".toList after_second_line after_third_line
        (Reachable.step demo_os 1 "echo b".toList after_first_line after_second_line
          (Reachable.step demo_os 1 "echo hi".toList demo_shell after_first_line
            (Reachable.start demo_shell (by decide)) (by decide))
          (by decide))
        (by decide))
      (by decide) (by decide) (by decide) (by decide) (by decide) (by decide)⟩

/-! ## Uniqueness of names in the variable store (C16) -/

theorem getElem?_lt_length {α : Type} {l : List α} {i : Nat} {a : α} (h : l[i]? = some a) :
    i < l.length := by
  rcases Nat.lt_or_ge i l.length with h1 | h1
  · exact h1
  · rw [List.getElem?_eq_none h1] at h; cases h

theorem map_name_set (vars : List LocalVar) (i : Nat) (v : LocalVar) (value : CStr)
    (hv : vars[i]? = some v) :
    (vars.set i { name := v.name, value := value }).map (fun x => x.name) =
      vars.map (fun x => x.name) := by
  apply List.ext_getElem?
  intro m
  simp only [List.getElem?_map, List.getElem?_set]
  by_cases hm : i = m
  · subst hm
    simp [hv, getElem?_lt_length hv]
  · simp [hm]

/-- Every argument `NAME=...` with a non-empty name is one from which
`wsh_local` reads a name, whatever follows the `=`. -/
theorem split_assignment_named (NAME tail : CStr) (hn : NAME ≠ []) (hn2 : '=' ∉ NAME) :
    (split_assignment (NAME ++ '=' :: tail)).isSome = true := by
  cases NAME with
  | nil => exact absurd rfl hn
  | cons c t =>
    have hc : c ≠ '=' := fun h => hn2 (by simp [h])
    have h1 := takeWhile_before_sep (c :: t) tail hn2
    have hs : strtok (c :: t ++ '=' :: tail) "=".toList = some (c :: t, tail) := by
      unfold strtok
      have hd : ((c :: t) ++ '=' :: tail).dropWhile (fun c => decide (c ∈ "=".toList)) =
          (c :: t) ++ '=' :: tail := by
        simp [List.dropWhile, hc]
      simp only [hd, h1.1, h1.2]
      simp
    unfold split_assignment
    rw [hs]
    cases h2 : strtok tail "=".toList with
    | none => simp only [h2]; rfl
    | some p => simp only [h2]; rfl

/-- Every call of `wsh_local` that names a variable returns, and keeps the
names of the store distinct. -/
theorem wsh_local_keeps_names_distinct (args : List (Option CStr)) (s : Shell) (a : CStr)
    (harg : arg_at args 1 = some a) (hsplit : (split_assignment a).isSome = true)
    (hnodup : (s.local_variables.map (fun x => x.name)).Nodup) :
    ∃ s1, wsh_local args s = .ok s1 ∧ (s1.local_variables.map (fun x => x.name)).Nodup := by
  cases hsp : split_assignment a with
  | none => rw [hsp] at hsplit; cases hsplit
  | some p =>
    obtain ⟨var_name, var_assignment⟩ := p
    cases hs : local_search s.local_variables var_name 0 with
    | none =>
      have hall := local_search_none.mp hs
      refine ⟨{ s with local_variables :=
          s.local_variables ++ [{ name := var_name, value := var_assignment }] }, ?_, ?_⟩
      · simp only [wsh_local, harg, hsp, hs]
      · simp only [List.map_append, List.map_cons, List.map_nil]
        rw [List.nodup_append]
        refine ⟨hnodup, List.nodup_singleton _, ?_⟩
        intro x hx hy
        rw [List.mem_singleton] at hy
        rw [List.mem_map] at hx
        obtain ⟨v, hv, hvx⟩ := hx
        exact hall v hv (by rw [hvx, hy])
    | some i =>
      obtain ⟨j, v, hij, hv, _, _⟩ := local_search_some hs
      have hi : i = j := by omega
      subst hi
      have hlt := getElem?_lt_length hv
      by_cases he : strcmp var_assignment [] = 0
      · refine ⟨{ s with local_variables := s.local_variables.eraseIdx i }, ?_, ?_⟩
        · simp only [wsh_local, harg, hsp, hs, he, if_true, shift_up_take _ _ hlt]
        · simp only
          exact hnodup.sublist ((List.eraseIdx_sublist _ _).map _)
      · refine ⟨{ s with
            local_variables := s.local_variables.set i { name := v.name, value := var_assignment },
            return_var := 0 }, ?_, ?_⟩
        · simp only [wsh_local, harg, hsp, hs, he, if_false, List.get?_eq_getElem?, hv]
        · simp only [map_name_set _ _ _ _ hv]
          exact hnodup

/-- In a store whose names are distinct, two entries with the same name
are the same entry. -/
theorem names_distinct_index (vars : List LocalVar)
    (hnodup : (vars.map (fun x => x.name)).Nodup) :
    ∀ (i j : Nat) (v w : LocalVar), vars[i]? = some v → vars[j]? = some w →
      v.name = w.name → i = j := by
  intro i j v w hv hw hname
  have hi := getElem?_lt_length hv
  have hj := getElem?_lt_length hw
  have h1 : (vars.map (fun x => x.name))[i]? = some v.name := by
    simp [List.getElem?_map, hv]
  have h2 : (vars.map (fun x => x.name))[j]? = some v.name := by
    simp [List.getElem?_map, hw, hname]
  have hi2 : i < (vars.map (fun x => x.name)).length := by simpa using hi
  have hj2 : j < (vars.map (fun x => x.name)).length := by simpa using hj
  rw [List.getElem?_eq_getElem hi2] at h1
  rw [List.getElem?_eq_getElem hj2] at h2
  have h3 : (vars.map (fun x => x.name))[i] = (vars.map (fun x => x.name))[j] := by
    injection h1 with h1
    injection h2 with h2
    rw [h1, h2]
  exact (List.Nodup.getElem_inj_iff hnodup).mp h3

/-- C16: starting from a store with distinct names, in particular the
empty store, every sequence of `local` commands whose argument names a
variable (`local NAME=VALUE` and `local NAME=`) runs to its end and leaves
a store in which no two entries have the same name. -/
theorem run_locals_names_distinct (cmds : List (List (Option CStr))) :
    ∀ (s : Shell),
      (∀ args ∈ cmds, ((arg_at args 1).bind split_assignment).isSome = true) →
      (s.local_variables.map (fun x => x.name)).Nodup →
      ∃ s1, run_locals cmds s = .ok s1 ∧ (s1.local_variables.map (fun x => x.name)).Nodup ∧
        ∀ (i j : Nat) (v w : LocalVar), s1.local_variables[i]? = some v →
          s1.local_variables[j]? = some w → v.name = w.name → i = j := by
  induction cmds with
  | nil =>
    intro s _ hnodup
    exact ⟨s, rfl, hnodup, names_distinct_index _ hnodup⟩
  | cons args rest ih =>
    intro s hcmds hnodup
    have hfirst := hcmds args (List.mem_cons_self _ _)
    cases harg : arg_at args 1 with
    | none => rw [harg] at hfirst; cases hfirst
    | some a =>
    rw [harg] at hfirst
    have hsplit : (split_assignment a).isSome = true := hfirst
    obtain ⟨s1, h1, hn1⟩ := wsh_local_keeps_names_distinct args s a harg hsplit hnodup
    obtain ⟨s2, h2, hn2⟩ := ih s1 (fun x hx => hcmds x (List.mem_cons_of_mem _ hx)) hn1
    exact ⟨s2, by simp only [run_locals, h1, Res.bind, h2], hn2⟩


/-- The uniqueness property at the sequence `local A=1`, `local B=2`,
`local A=3`, `local B=`, `local C=` run on the empty store. -/
theorem run_locals_names_distinct_witness :
    ∃ s1, run_locals
        [[some "local".toList, some "A=1".toList], [some "local".toList, some "B=2".toList],
         [some "local".toList, some "A=3".toList], [some "local".toList, some "B=".toList],
         [some "local".toList, some "C=".toList]] demo_shell = .ok s1 ∧
      (s1.local_variables.map (fun x => x.name)).Nodup ∧
      ∀ (i j : Nat) (v w : LocalVar), s1.local_variables[i]? = some v →
        s1.local_variables[j]? = some w → v.name = w.name → i = j :=
  run_locals_names_distinct
    [[some "local".toList, some "A=1".toList], [some "local".toList, some "B=2".toList],
     [some "local".toList, some "A=3".toList], [some "local".toList, some "B=".toList],
     [some "local".toList, some "C=".toList]] demo_shell (by decide) (by decide)

/-! ## The status register after an external command (C11) -/

/-- In the branch for a directly executable command the register becomes
the exit code of the child, and -1 when a signal ended it. -/
theorem launch_direct_status (os : OS) (path : CStr) (argv : List CStr) (s : Shell) :
    (∀ code, os.spawn path argv = some (.exited code) →
      (launch_direct os path argv s).return_var = code) ∧
    (os.spawn path argv = some .signaled → (launch_direct os path argv s).return_var = -1) := by
  constructor
  · intro code h; simp [launch_direct, h]
  · intro h; simp [launch_direct, h]

/-- In the `PATH` branch the register becomes 0 for exit code 0 and -1 for
a signal, and keeps its former value for every other exit code. -/
theorem launch_path_status (os : OS) (path : CStr) (argv : List CStr) (s : Shell) :
    (∀ code, os.spawn path argv = some (.exited code) →
      (launch_path os path argv s).return_var = if code = 0 then 0 else s.return_var) ∧
    (os.spawn path argv = some .signaled → (launch_path os path argv s).return_var = -1) := by
  constructor
  · intro code h; simp [launch_path, h]
  · intro h; simp [launch_path, h]

/-- C11 (evaluation at the failing input): with the register at 0 and
`PATH=/bin`, the line `false` launches `/bin/false`, whose child exits with
code 1, and the register is still 0 afterwards; the same executable given
as `/bin/false` goes through the direct branch and leaves 1. -/
theorem path_launch_drops_exit_code :
    exit_one_os.spawn "/bin/false".toList ["false".toList] = some (.exited 1) ∧
    demo_shell.return_var = 0 ∧
    (execute_commands exit_one_os 1 ["false".toList] (some "false".toList) false
        demo_shell).bind (fun s1 => .ok (s1.launched, s1.return_var)) =
      .ok ([("/bin/false".toList, ["false".toList])], 0) ∧
    (execute_commands exit_one_os 1 ["/bin/false".toList] (some "/bin/false".toList) false
        demo_shell).bind (fun s1 => .ok (s1.launched, s1.return_var)) =
      .ok ([("/bin/false".toList, ["/bin/false".toList])], 1) := by
  refine ⟨by decide, by decide, by decide, by decide⟩

/-! ## The status register after `cd` (C12) -/

/-- The function `wsh_cd` always leaves the register at 0. -/
theorem wsh_cd_status (os : OS) (args : List (Option CStr)) (s : Shell) :
    (wsh_cd os args s).return_var = 0 := rfl

/-- C12 (evaluation at the failing inputs): entered with the register at
7, `cd` without argument leaves the register at 0, `cd a b` changes to `a`
and leaves 0, and `cd nowhere` with a failing `chdir` leaves 0. -/
theorem cd_errors_leave_status_zero :
    wsh_cd demo_os [some "cd".toList] status_seven_shell = demo_shell ∧
    wsh_cd demo_os [some "cd".toList, some "a".toList, some "b".toList] status_seven_shell =
      { demo_shell with chdirs := ["a".toList] } ∧
    wsh_cd no_chdir_os [some "cd".toList, some "nowhere".toList] status_seven_shell =
      demo_shell ∧
    (execute_commands demo_os 1 ["cd".toList] (some "cd".toList) false
        status_seven_shell).bind (fun s1 => .ok (s1.return_var, s1.chdirs)) = .ok (0, []) ∧
    (execute_commands demo_os 1 ["cd".toList, "a".toList, "b".toList]
        (some "cd a b".toList) false status_seven_shell).bind
      (fun s1 => .ok (s1.return_var, s1.chdirs)) = .ok (0, ["a".toList]) := by
  decide

/-! ## The status register after `history` (C13) -/

/-- Whenever `wsh_history` returns, the register is 0. -/
theorem wsh_history_status {os : OS} {replay : List CStr → Shell → Res Shell}
    {args : List (Option CStr)} {s s1 : Shell} (h : wsh_history os replay args s = .ok s1) :
    s1.return_var = 0 := by
  unfold wsh_history at h
  obtain ⟨s2, _, h2⟩ := res_bind_ok h
  cases h2
  rfl

/-- C13 (evaluation at the failing inputs): on the empty ring of five
slots, entered with the register at 7, each of `history 0`, `history 9`,
`history 1`, `history set 0`, `history set abc` and `history foo` returns
with the register at 0 and the ring as it was. -/
theorem history_errors_leave_status_zero :
    (["0".toList, "9".toList, "1".toList, "foo".toList].map fun a =>
      wsh_history demo_os (fun _ s => .ok s) [some "history".toList, some a]
        status_seven_shell) =
      [.ok demo_shell, .ok demo_shell, .ok demo_shell, .ok demo_shell] ∧
    (["0".toList, "abc".toList].map fun a =>
      wsh_history demo_os (fun _ s => .ok s)
        [some "history".toList, some "set".toList, some a] status_seven_shell) =
      [.ok demo_shell, .ok demo_shell] ∧
    (execute_commands demo_os 2 ["history".toList, "0".toList] (some "history 0".toList)
        false status_seven_shell).bind (fun s1 => .ok s1.return_var) = .ok 0 := by
  decide

/-! ## The status register after a failed redirection (C14) -/

/-- C14 (counterexample): in `echo hi <nofile` the file of the redirection
token does not open, the command is launched all the same, with the token
among its arguments, and the register is 0 when `execute_commands`
returns, not -1. -/
theorem failed_redirection_status_overwritten :
    redir_fails no_open_os "<nofile".toList = true ∧
    (execute_commands no_open_os 1 ["echo".toList, "hi".toList, "<nofile".toList]
        (some "echo hi <nofile".toList) false status_seven_shell).bind
      (fun s1 => .ok (s1.launched, s1.return_var)) =
      .ok ([("/bin/echo".toList, ["echo".toList, "hi".toList, "<nofile".toList])], 0) ∧
    (execute_commands no_open_os 1 ["echo".toList, "hi".toList, "<nofile".toList]
        (some "echo hi <nofile".toList) false status_seven_shell).bind
      (fun s1 => .ok s1.return_var) ≠ .ok (-1) := by
  refine ⟨by decide, by decide, by decide⟩

theorem apply_redir_slot {os : OS} {r : Redir} {t : CStr} {s s1 : Shell} {slot : Option CStr}
    (hp : parse_redir t = some r) (h : apply_redir os r s = .ok (slot, s1)) :
    slot = slot_after os t ∧
      (s1.return_var = -1 ∨ (s1.return_var = s.return_var ∧ redir_fails os t = false)) := by
  unfold apply_redir at h
  unfold slot_after redir_fails
  rw [hp]
  split at h
  · cases h
  · rename_i f hf
    simp only [hf]
    split at h
    · rename_i hopen
      cases h
      simp [hopen]
    · rename_i hopen
      split at h
      · cases h
        simp [hopen]
      · cases h

theorem redirect_loop_slots_status {os : OS} (args : List CStr) :
    ∀ {s s1 : Shell} {slots : List (Option CStr)},
      redirect_loop os args s = .ok (slots, s1) →
      slots = args.map (slot_after os) ∧
        (s.return_var = -1 → s1.return_var = -1) ∧
        ((∃ t ∈ args, redir_fails os t = true) → s1.return_var = -1) := by
  induction args with
  | nil =>
    intro s s1 slots h
    simp only [redirect_loop] at h
    cases h
    simp
  | cons t rest ih =>
    intro s s1 slots h
    simp only [redirect_loop] at h
    cases hp : parse_redir t with
    | none =>
      rw [hp] at h
      obtain ⟨⟨slots1, s2⟩, hrest, h2⟩ := res_bind_ok h
      cases h2
      obtain ⟨h3, h4, h5⟩ := ih hrest
      have hfalse : redir_fails os t = false := by simp [redir_fails, hp]
      refine ⟨by simp [h3, slot_after, hp], h4, ?_⟩
      intro ⟨u, hu, hfail⟩
      rcases List.mem_cons.mp hu with hut | hur
      · rw [hut, hfalse] at hfail; cases hfail
      · exact h5 ⟨u, hur, hfail⟩
    | some r =>
      rw [hp] at h
      obtain ⟨⟨slot, sq⟩, hq, h2⟩ := res_bind_ok h
      obtain ⟨⟨slots1, s2⟩, hrest, h3⟩ := res_bind_ok h2
      cases h3
      obtain ⟨h4, h5, h6⟩ := ih hrest
      obtain ⟨hslot, hstat⟩ := apply_redir_slot hp hq
      refine ⟨by simp [h4, hslot], ?_, ?_⟩
      · intro hs
        apply h5
        rcases hstat with h7 | ⟨h7, _⟩
        · exact h7
        · rw [h7]; exact hs
      · intro ⟨u, hu, hfail⟩
        rcases List.mem_cons.mp hu with hut | hur
        · rcases hstat with h7 | ⟨_, h8⟩
          · exact h5 h7
          · rw [hut, h8] at hfail; cases hfail
        · exact h6 ⟨u, hur, hfail⟩

theorem record_history_status {args0 original_line : Option CStr} {from_history ran : Bool}
    {s s1 : Shell} (h : record_history args0 original_line from_history ran s = .ok s1) :
    s1.return_var = s.return_var := by
  unfold record_history at h
  split at h
  · cases h; rfl
  · split at h
    · split at h
      · split at h
        · cases h
        · cases h
        · split at h
          · cases h; rfl
          · cases h; rfl
      · cases h; rfl
    · cases h; rfl

/-- C14 (amended): when the scan of a command line is defined and at least
one of its redirection tokens of the kinds `<`, `>`, `>>` names a file that
does not open, the register is -1 when the scan ends, every token has been
scanned (its slot is `NULL` when its file opened and holds the token
otherwise), the command is then attempted on that array, and the register
when `execute_commands` returns is the one the attempted command left, or
-1 when no command was executed. -/
theorem failed_redirection_status (os : OS) (fuel : Nat) (args : List CStr)
    (original_line : Option CStr) (from_history : Bool) (s s0 : Shell)
    (slots : List (Option CStr))
    (hscan : scan_args os args s = .ok (slots, s0))
    (hfail : ∃ t ∈ args, redir_fails os t = true) :
    s0.return_var = -1 ∧
    slots = args.map (slot_after os) ∧
    execute_commands os (fuel + 1) args original_line from_history s =
      after_scan os (fun temp_args s1 => execute_commands os fuel temp_args none true s1)
        (save_std s.fds).1 original_line from_history (slots, s0) ∧
    ∀ s1, execute_commands os (fuel + 1) args original_line from_history s = .ok s1 →
      ∃ s2 ran,
        dispatch os (fun temp_args s1 => execute_commands os fuel temp_args none true s1)
          slots s0 = .ok (s2, ran) ∧
        s1.return_var = if ran = true then s2.return_var else -1 := by
  have hloop := redirect_loop_slots_status args hscan
  have heq : execute_commands os (fuel + 1) args original_line from_history s =
      after_scan os (fun temp_args s1 => execute_commands os fuel temp_args none true s1)
        (save_std s.fds).1 original_line from_history (slots, s0) := by
    simp only [execute_commands, execute_body, hscan, Res.bind, after_scan]
  refine ⟨hloop.2.2 hfail, hloop.1, heq, ?_⟩
  intro s1 h1
  rw [heq] at h1
  unfold after_scan at h1
  obtain ⟨⟨s2, ran⟩, hd, h2⟩ := res_bind_ok h1
  obtain ⟨s3, hr, h3⟩ := res_bind_ok h2
  refine ⟨s2, ran, hd, ?_⟩
  have hs3 := record_history_status hr
  simp only at h3 hs3
  cases h3
  cases ran
  · simp
  · simp [hs3]


/-- The amended property at `echo hi <nofile` when no file opens. -/
theorem failed_redirection_status_witness :
    ({ status_seven_shell with
        fds := (save_std status_seven_shell.fds).2, return_var := -1 } : Shell).return_var = -1 ∧
    [some "echo".toList, some "hi".toList, some "<nofile".toList] =
      ["echo".toList, "hi".toList, "<nofile".toList].map (slot_after no_open_os) ∧
    execute_commands no_open_os 1 ["echo".toList, "hi".toList, "<nofile".toList]
        (some "echo hi <nofile".toList) false status_seven_shell =
      after_scan no_open_os
        (fun temp_args s1 => execute_commands no_open_os 0 temp_args none true s1)
        (save_std status_seven_shell.fds).1 (some "echo hi <nofile".toList) false
        ([some "echo".toList, some "hi".toList, some "<nofile".toList],
          { status_seven_shell with
            fds := (save_std status_seven_shell.fds).2, return_var := -1 }) ∧
    ∀ s1, execute_commands no_open_os 1 ["echo".toList, "hi".toList, "<nofile".toList]
        (some "echo hi <nofile".toList) false status_seven_shell = .ok s1 →
      ∃ s2 ran,
        dispatch no_open_os
          (fun temp_args s1 => execute_commands no_open_os 0 temp_args none true s1)
          [some "echo".toList, some "hi".toList, some "<nofile".toList]
          { status_seven_shell with
            fds := (save_std status_seven_shell.fds).2, return_var := -1 } = .ok (s2, ran) ∧
        s1.return_var = if ran = true then s2.return_var else -1 :=
  failed_redirection_status no_open_os 0 ["echo".toList, "hi".toList, "<nofile".toList]
    (some "echo hi <nofile".toList) false status_seven_shell
    { status_seven_shell with fds := (save_std status_seven_shell.fds).2, return_var := -1 }
    [some "echo".toList, some "hi".toList, some "<nofile".toList] (by decide) (by decide)

/-! ## The redirection resolver on simple tokens (C15) -/

end Wsh
